
import Mathlib

set_option maxHeartbeats 1000000

namespace AsnProcessor

/-!
Shallow embedding of the core of the asnProcessorX backend
(`src/backend/core/{serialization,converter,manager,tracer,type_tree}.py`).

Python values that flow through the converter/serializer are modelled by
the inductive `PyVal` (dicts keep insertion order, as Python dicts do).
Python exceptions are modelled by `Except PyErr`.
-/

/-- JSON-shaped / codec-native Python values handled by the converter. -/

inductive PyVal where
  | str (s : String)
  | int (n : Int)
  | bool (b : Bool)
  | none
  | bytes (bs : List Nat)
  | list (xs : List PyVal)
  | tuple (xs : List PyVal)
  | dict (entries : List (String × PyVal))

/-- Python exceptions relevant to the core: `ValueError`, `TypeError`, and
codec-engine decode/encode errors (kept abstract). -/

inductive PyErr where
  | valueError (msg : String)
  | typeError (msg : String)
  | decodeError (msg : String)
deriving DecidableEq, Repr

/-- Value of a hexadecimal digit character, if it is one. -/

def hexDigitVal (c : Char) : Option Nat :=
  if '0' ≤ c ∧ c ≤ '9' then some (c.toNat - 48)
  else if 'a' ≤ c ∧ c ≤ 'f' then some (c.toNat - 87)
  else if 'A' ≤ c ∧ c ≤ 'F' then some (c.toNat - 55)
  else Option.none

/-- Parse a character list as consecutive hex-digit pairs (one byte each).
Fails on a non-hex character or an odd number of digits. -/

def hexPairsToBytes : List Char → Option (List Nat)
  | [] => some []
  | c1 :: c2 :: rest =>
    match hexDigitVal c1, hexDigitVal c2 with
    | some h, some l => (hexPairsToBytes rest).map (fun bs => (16 * h + l) :: bs)
    | _, _ => Option.none
  | [_] => Option.none

/-- Model of Python `bytes.fromhex` on a string: two hex digits per byte.
(Whitespace skipping is not modelled; all call sites in the source strip
spaces/newlines before calling it, and our witnesses use whitespace-free
strings.) -/

def fromhexChars (cs : List Char) : Except PyErr (List Nat) :=
  match hexPairsToBytes cs with
  | some bs => Except.ok bs
  | Option.none => Except.error (PyErr.valueError "non-hexadecimal number found in fromhex() arg")

/-- Python `bytes.fromhex(x)` applied to an arbitrary value: a `TypeError`
unless `x` is a string. -/

def pyFromhex (v : PyVal) : Except PyErr (List Nat) :=
  match v with
  | .str s => fromhexChars s.data
  | _ => Except.error (PyErr.typeError "fromhex() argument must be str")

/-- Python `s.startswith("0x")`. -/

def startsWith0x : List Char → Bool
  | '0' :: 'x' :: _ => true
  | _ => false

/-- Truthiness of Python `s.strip()`: true iff `s` has a non-whitespace
character. -/

def stripTruthy (s : String) : Bool :=
  !(s.data.all Char.isWhitespace)

/-- Python `s.replace("0x", "")`: remove every (non-overlapping, left-to-right)
occurrence of the two-character substring `0x`. -/

def remove0x : List Char → List Char
  | '0' :: 'x' :: rest => remove0x rest
  | c :: rest => c :: remove0x rest
  | [] => []

/-- The hex cleanup used by `convert_to_python_asn1`:
`val.replace("0x", "").replace(" ", "").replace("\n", "")`. -/

def cleanHexChars (s : String) : List Char :=
  ((remove0x s.data).filter (fun c => c ≠ ' ')).filter (fun c => c ≠ '\n')

/-- Zero-pad an odd-length hex digit string on the right
(`if len(clean_hex) % 2 != 0: clean_hex += "0"`). -/

def padEven (cs : List Char) : List Char :=
  if cs.length % 2 = 1 then cs ++ ['0'] else cs

/-- Lower-case hex digit character for a value `< 16`. -/

def hexDigitChar (n : Nat) : Char :=
  if n < 10 then Char.ofNat (48 + n) else Char.ofNat (87 + n)

/-- Lower-case hex rendering of one byte (Python `bytes.hex` per byte). -/

def byteHex (b : Nat) : List Char :=
  [hexDigitChar (b / 16 % 16), hexDigitChar (b % 16)]

/-- Model of Python `bytes.hex()`: lower-case, two digits per byte. -/

def bytesHexStr (bs : List Nat) : String :=
  ⟨bs.foldr (fun b acc => byteHex b ++ acc) []⟩

/-- First-match lookup in an (insertion-ordered) Python dict. -/

def dlookup (es : List (String × PyVal)) (k : String) : Option PyVal :=
  match es with
  | [] => Option.none
  | (k', v) :: rest => if k' = k then some v else dlookup rest k

/-- Python `isinstance(x, int)` (`bool` is a subclass of `int`). -/

def pyIsInt (v : PyVal) : Bool :=
  match v with
  | .int _ => true
  | .bool _ => true
  | _ => false

/-- Parse an optionally signed decimal numeral surrounded by whitespace
(the accepting core of Python `int(str)`; digit-group underscores are not
modelled). -/

def parseIntChars (cs : List Char) : Option Int :=
  let t := (cs.dropWhile Char.isWhitespace).reverse.dropWhile Char.isWhitespace |>.reverse
  let core : List Char → Option Int := fun ds =>
    if ds = [] then Option.none
    else if ds.all Char.isDigit then
      some (Int.ofNat (ds.foldl (fun acc c => acc * 10 + (c.toNat - 48)) 0))
    else Option.none
  match t with
  | '-' :: rest => (core rest).map (fun n => -n)
  | '+' :: rest => core rest
  | _ => core t

/-- Model of Python `int(x)` as used by the converter: ints and bools pass
through, numeric strings/bytes parse, everything else raises. -/

def pyInt (v : PyVal) : Except PyErr Int :=
  match v with
  | .int n => Except.ok n
  | .bool b => Except.ok (if b then 1 else 0)
  | .str s =>
    match parseIntChars s.data with
    | some n => Except.ok n
    | Option.none => Except.error (PyErr.valueError "invalid literal for int() with base 10")
  | .bytes bs =>
    match parseIntChars (bs.map Char.ofNat) with
    | some n => Except.ok n
    | Option.none => Except.error (PyErr.valueError "invalid literal for int() with base 10")
  | _ => Except.error (PyErr.typeError "int() argument must be a string, a bytes-like object or a real number")

/-!
`serialize_asn1_data` — the decode-result normalizer / `toWireValue`
(src/backend/core/serialization.py, lines 63-79).
-/

mutual

/-- `serialize_asn1_data`: convert asn1tools decoded data to a
JSON-serializable wire value. -/

def serialize_asn1_data : PyVal → PyVal
  | .dict es => .dict (serializeEntries es)
  | .tuple [PyVal.str s, second] =>
    .dict [("$choice", PyVal.str s), ("value", serialize_asn1_data second)]
  | .tuple [PyVal.bytes bs, second] =>
    if pyIsInt second then .list [PyVal.str ("0x" ++ bytesHexStr bs), second]
    else .list (serializeList [PyVal.bytes bs, second])
  | .tuple xs => .list (serializeList xs)
  | .list xs => .list (serializeList xs)
  | .bytes bs => .str (bytesHexStr bs)
  | .str s => .str s
  | .int n => .int n
  | .bool b => .bool b
  | .none => .none

def serializeList : List PyVal → List PyVal
  | [] => []
  | v :: vs => serialize_asn1_data v :: serializeList vs

def serializeEntries : List (String × PyVal) → List (String × PyVal)
  | [] => []
  | (k, v) :: rest => (k, serialize_asn1_data v) :: serializeEntries rest

end

mutual

/-- A value is JSON-serializable: no `bytes`/`bytearray` and no tuple at any
nesting depth. -/

def jsonSafe : PyVal → Bool
  | .bytes _ => false
  | .tuple _ => false
  | .list xs => jsonSafeList xs
  | .dict es => jsonSafeEntries es
  | _ => true

def jsonSafeList : List PyVal → Bool
  | [] => true
  | v :: vs => jsonSafe v && jsonSafeList vs

def jsonSafeEntries : List (String × PyVal) → Bool
  | [] => true
  | (_, v) :: rest => jsonSafe v && jsonSafeEntries rest

end

/-!
`_extract_choice` and `deserialize_asn1_data`
(src/backend/core/serialization.py, lines 5-60).
-/

/-- `CHOICE_META_KEYS = {"value", "$choice", "choice"}`. -/

def CHOICE_META_KEYS : List String := ["value", "$choice", "choice"]

/-- The trailing `if len(data) == 1` branch of `_extract_choice`:
a single-key map whose (string) key is non-blank is an implicit CHOICE. -/

def singleKeyChoice (es : List (String × PyVal)) : Option (PyVal × PyVal) :=
  match es with
  | [(k, v)] => if stripTruthy k then some (PyVal.str k, v) else Option.none
  | _ => Option.none

/-- `_extract_choice`: interpret a dict as an ASN.1 CHOICE value if possible,
trying `$choice`/`choice` + `value`, then `value` + exactly one non-meta
key with a non-blank string value, then a single-key map. -/

def extract_choice (es : List (String × PyVal)) : Option (PyVal × PyVal) :=
  match dlookup es "$choice", dlookup es "value" with
  | some c, some v => some (c, v)
  | _, _ =>
    match dlookup es "choice", dlookup es "value" with
    | some c, some v => some (c, v)
    | _, _ =>
      match dlookup es "value" with
      | some v =>
        match (es.map Prod.fst).filter (fun k => !(CHOICE_META_KEYS.contains k)) with
        | [mk] =>
          match dlookup es mk with
          | some (PyVal.str mv) =>
            if stripTruthy mv then some (PyVal.str mv, v) else singleKeyChoice es
          | _ => singleKeyChoice es
        | _ => singleKeyChoice es
      | Option.none => singleKeyChoice es

/-- First-match dict lookup only returns stored entries. -/

theorem dlookup_mem {es : List (String × PyVal)} {k : String} {v : PyVal}
    (h : dlookup es k = some v) : (k, v) ∈ es := by
  induction es with
  | nil => simp [dlookup] at h
  | cons e rest ih =>
    obtain ⟨k', v'⟩ := e
    by_cases hk : k' = k
    · subst hk
      simp [dlookup] at h
      simp [h]
    · simp [dlookup, hk] at h
      exact List.mem_cons_of_mem _ (ih h)

/-- The payload returned by `_extract_choice` is one of the dict's stored
values (needed for termination of the recursive deserializer). -/

theorem extract_choice_mem {es : List (String × PyVal)} {c v : PyVal}
    (h : extract_choice es = some (c, v)) : ∃ k, (k, v) ∈ es := by
  have hsingle : ∀ (c' v' : PyVal), singleKeyChoice es = some (c', v') → ∃ k, (k, v') ∈ es := by
    intro c' v' hs
    unfold singleKeyChoice at hs
    split at hs
    · next k v'' =>
      split at hs
      · simp at hs
        exact ⟨k, by simp [hs.2]⟩
      · simp at hs
    · simp at hs
  unfold extract_choice at h
  split at h
  · next heq1 heq2 =>
    simp at h
    exact ⟨"value", dlookup_mem (h.2 ▸ heq2)⟩
  · split at h
    · next heq1 heq2 =>
      simp at h
      exact ⟨"value", dlookup_mem (h.2 ▸ heq2)⟩
    · split at h
      · next heqv =>
        split at h
        · split at h
          · split at h
            · simp at h
              exact ⟨"value", dlookup_mem (h.2 ▸ heqv)⟩
            · exact hsingle _ _ h
          · exact hsingle _ _ h
        · exact hsingle _ _ h
      · exact hsingle _ _ h

theorem sizeOf_dlookup_lt {es : List (String × PyVal)} {k : String} {v : PyVal}
    (h : dlookup es k = some v) : sizeOf v < sizeOf es := by
  have hm := dlookup_mem h
  have := List.sizeOf_lt_of_mem hm
  simp at this
  omega

theorem sizeOf_extract_choice_lt {es : List (String × PyVal)} {c v : PyVal}
    (h : extract_choice es = some (c, v)) : sizeOf v < sizeOf es := by
  obtain ⟨k, hm⟩ := extract_choice_mem h
  have := List.sizeOf_lt_of_mem hm
  simp at this
  omega

mutual

/-- `deserialize_asn1_data`: the generic wire→codec normalizer — `$hex`
maps become bytes, CHOICE notations become `(tag, payload)` tuples,
`["0x…", int]` pairs become `(bytes, int)`, `0x`-prefixed strings become
bytes; exceptions from `bytes.fromhex` propagate. -/

def deserialize_asn1_data : PyVal → Except PyErr PyVal
  | .dict es =>
    match dlookup es "$hex" with
    | some hv => (pyFromhex hv).map PyVal.bytes
    | Option.none =>
      match hch : extract_choice es with
      | some (c, v) =>
        (deserialize_asn1_data v).map (fun dv => PyVal.tuple [c, dv])
      | Option.none => (deserializeEntries es).map PyVal.dict
  | .list [PyVal.str s, b] =>
    if pyIsInt b ∧ startsWith0x s.data then
      (fromhexChars (remove0x s.data)).map (fun bs => PyVal.tuple [PyVal.bytes bs, b])
    else
      (deserializeList [PyVal.str s, b]).map PyVal.list
  | .list xs => (deserializeList xs).map PyVal.list
  | .str s =>
    if startsWith0x s.data then (fromhexChars (remove0x s.data)).map PyVal.bytes
    else Except.ok (PyVal.str s)
  | v => Except.ok v
termination_by v => sizeOf v
decreasing_by
  all_goals simp_wf
  all_goals first
    | omega
    | (have h := sizeOf_extract_choice_lt hch; omega)

def deserializeList : List PyVal → Except PyErr (List PyVal)
  | [] => Except.ok []
  | v :: vs => do
    let dv ← deserialize_asn1_data v
    let rest ← deserializeList vs
    return dv :: rest
termination_by xs => sizeOf xs
decreasing_by
  all_goals simp_wf <;> omega

def deserializeEntries : List (String × PyVal) → Except PyErr (List (String × PyVal))
  | [] => Except.ok []
  | (k, v) :: rest => do
    let dv ← deserialize_asn1_data v
    let r ← deserializeEntries rest
    return (k, dv) :: r
termination_by es => sizeOf es
decreasing_by
  all_goals simp_wf <;> omega

end

/-!
`convert_to_python_asn1` — `toCodecValue`
(src/backend/core/converter.py, lines 4-121).

The asn1tools compiled `Type` is abstracted by `Asn1Type`: its Python class
name (`type(real_type).__name__`) picks the constructor; `_get_members`
(root_members / root_index_to_member / additions, with `Member` wrappers
unwrapped through `_type`) is abstracted as an ordered `(name, type)` list;
`element_type` may be absent (`getattr(..., None)`).
-/

inductive Asn1Type where
  | Choice (members : List (String × Asn1Type))
  | Sequence (members : List (String × Asn1Type))
  | Set (members : List (String × Asn1Type))
  | SequenceOf (elem : Option Asn1Type)
  | SetOf (elem : Option Asn1Type)
  | OctetString
  | BitString
  | Other

/-- The member loop of the converter's Choice branch: the first declared
member whose name is a key of the input dict, with that key's value. -/

def findChoiceMember (ms : List (String × Asn1Type)) (es : List (String × PyVal)) :
    Option (String × Asn1Type × PyVal) :=
  match ms with
  | [] => Option.none
  | (n, t) :: rest =>
    match dlookup es n with
    | some v => some (n, t, v)
    | Option.none => findChoiceMember rest es

theorem findChoiceMember_dlookup {ms : List (String × Asn1Type)}
    {es : List (String × PyVal)} {n : String} {t : Asn1Type} {v : PyVal}
    (h : findChoiceMember ms es = some (n, t, v)) : dlookup es n = some v := by
  induction ms with
  | nil => simp [findChoiceMember] at h
  | cons m rest ih =>
    obtain ⟨n', t'⟩ := m
    unfold findChoiceMember at h
    split at h
    · next heq =>
      simp at h
      obtain ⟨hn, _, hv⟩ := h
      rw [hn, hv] at heq
      exact heq
    · exact ih h

theorem sizeOf_findChoiceMember_lt {ms : List (String × Asn1Type)}
    {es : List (String × PyVal)} {n : String} {t : Asn1Type} {v : PyVal}
    (h : findChoiceMember ms es = some (n, t, v)) : sizeOf v < sizeOf es :=
  sizeOf_dlookup_lt (findChoiceMember_dlookup h)

/-- The second loop of the converter's Sequence/Set branch:
`for k, v in data.items(): if k not in converted: converted[k] =
deserialize_asn1_data(v)` — keys already converted are skipped, the rest
pass through the generic normalizer (exceptions propagate). -/

def deserializeExtras (done : List String) :
    List (String × PyVal) → Except PyErr (List (String × PyVal))
  | [] => Except.ok []
  | (k, v) :: rest =>
    if done.contains k then deserializeExtras done rest
    else do
      let dv ← deserialize_asn1_data v
      let r ← deserializeExtras done rest
      return (k, dv) :: r

/-- The `val` selection of the converter's OctetString branch:
`val = data[0]` for a non-empty list/tuple, else `data` itself. -/

def octetVal (data : PyVal) : PyVal :=
  match data with
  | .list (x :: _) => x
  | .tuple (x :: _) => x
  | _ => data

/-- Body of the converter's OctetString branch after `val` has been
selected (`val = data[0]` for a non-empty list/tuple, else `data`): a hex
string parses to bytes, anything else falls through to the generic
normalizer applied to the whole input. -/

def octetBody (val data : PyVal) : Except PyErr PyVal :=
  match val with
  | .str s =>
    match fromhexChars (padEven (cleanHexChars s)) with
    | .ok bs => Except.ok (PyVal.bytes bs)
    | .error _ => deserialize_asn1_data data
  | _ => deserialize_asn1_data data

/-- Body of the converter's BitString branch for a `[hex, bitLength]`-shaped
input after `bit_len = int(data[1])` has succeeded with value `n`. -/

def bitBody (h data : PyVal) (n : Int) : Except PyErr PyVal :=
  match h with
  | .str s =>
    match fromhexChars (padEven (cleanHexChars s)) with
    | .ok bs => Except.ok (PyVal.tuple [PyVal.bytes bs, PyVal.int n])
    | .error _ => deserialize_asn1_data data
  | _ => deserialize_asn1_data data

mutual

/-- `convert_to_python_asn1`: recursively convert JSON-compatible data to
codec-native values, guided by the compiled type. -/

def convert_to_python_asn1 (data : PyVal) (ty : Asn1Type) : Except PyErr PyVal :=
  match ty with
  | .Choice ms =>
    match data with
    | .dict es =>
      match hfm : findChoiceMember ms es with
      | some (n, _mt, v) =>
        (convert_to_python_asn1 v _mt).map (fun cv => PyVal.tuple [PyVal.str n, cv])
      | Option.none => deserialize_asn1_data data
    | .tuple [d0, d1] =>
      (convert_to_python_asn1 d1 (Asn1Type.Choice ms)).map (fun cv => PyVal.tuple [d0, cv])
    | .list [d0, d1] =>
      (convert_to_python_asn1 d1 (Asn1Type.Choice ms)).map (fun cv => PyVal.tuple [d0, cv])
    | _ => deserialize_asn1_data data
  | .Sequence ms | .Set ms =>
    match data with
    | .dict es => do
      let conv ← convertMembers ms es
      let extras ← deserializeExtras (conv.map Prod.fst) es
      return PyVal.dict (conv ++ extras)
    | _ => deserialize_asn1_data data
  | .SequenceOf elemT | .SetOf elemT =>
    match data with
    | .list xs =>
      match elemT with
      | some et => (convertList xs et).map PyVal.list
      | Option.none => deserialize_asn1_data data
    | _ => deserialize_asn1_data data
  | .OctetString => octetBody (octetVal data) data
  | .BitString =>
    match data with
    | .list (h :: b2 :: _) | .tuple (h :: b2 :: _) => do
      let n ← pyInt b2
      bitBody h data n
    | .str s =>
      match fromhexChars (padEven (cleanHexChars s)) with
      | .ok bs => Except.ok (PyVal.tuple [PyVal.bytes bs, PyVal.int (8 * bs.length)])
      | .error _ => deserialize_asn1_data data
    | _ => deserialize_asn1_data data
  | .Other => deserialize_asn1_data data
termination_by (sizeOf data, 0)
decreasing_by
  all_goals simp_wf
  all_goals first
    | omega
    | exact Prod.Lex.left _ _ (by omega)
    | exact Prod.Lex.left _ _ (by have := sizeOf_findChoiceMember_lt hfm; omega)

/-- The member loop of the converter's Sequence/Set branch: members present
in the dict are converted by their own type, in member order. -/

def convertMembers (ms : List (String × Asn1Type)) (es : List (String × PyVal)) :
    Except PyErr (List (String × PyVal)) :=
  match ms with
  | [] => Except.ok []
  | (n, t) :: rest =>
    match hdl : dlookup es n with
    | some v => do
      let cv ← convert_to_python_asn1 v t
      let r ← convertMembers rest es
      return (n, cv) :: r
    | Option.none => convertMembers rest es
termination_by (sizeOf es, sizeOf ms)
decreasing_by
  all_goals simp_wf
  all_goals first
    | exact Prod.Lex.left _ _ (by have := sizeOf_dlookup_lt hdl; omega)
    | exact Prod.Lex.right _ (by omega)
    | (apply Prod.Lex.right; omega)

/-- The element loop of the converter's SequenceOf/SetOf branch. -/

def convertList (xs : List PyVal) (et : Asn1Type) : Except PyErr (List PyVal) :=
  match xs with
  | [] => Except.ok []
  | x :: rest => do
    let cx ← convert_to_python_asn1 x et
    let r ← convertList rest et
    return cx :: r
termination_by (sizeOf xs, 0)
decreasing_by
  all_goals simp_wf
  all_goals first
    | exact Prod.Lex.left _ _ (by omega)
    | exact Prod.Lex.right _ (by omega)

end

mutual

/-- Hex-wellformedness for the generic normalizer: every string the
deserializer would pass to `bytes.fromhex` parses (a `0x`-prefixed string
cleans to valid even-length hex, a `$hex` entry is a valid hex string).
Tuples are returned unchanged by the deserializer, so they are always safe. -/

def dsafe : PyVal → Bool
  | .str s => !startsWith0x s.data || (hexPairsToBytes (remove0x s.data)).isSome
  | .dict es =>
    match dlookup es "$hex" with
    | some (PyVal.str h) => (hexPairsToBytes h.data).isSome
    | some _ => false
    | Option.none => dsafeEntries es
  | .list xs => dsafeList xs
  | _ => true
termination_by v => sizeOf v

def dsafeList : List PyVal → Bool
  | [] => true
  | v :: vs => dsafe v && dsafeList vs
termination_by xs => sizeOf xs

def dsafeEntries : List (String × PyVal) → Bool
  | [] => true
  | (_, v) :: rest => dsafe v && dsafeEntries rest
termination_by es => sizeOf es

end

/-- In a hex-wellformed dict every stored value is hex-wellformed. -/

theorem dsafeEntries_mem {es : List (String × PyVal)} {k : String} {v : PyVal}
    (hm : (k, v) ∈ es) (h : dsafeEntries es = true) : dsafe v = true := by
  induction es with
  | nil => simp at hm
  | cons e rest ih =>
    obtain ⟨k', v'⟩ := e
    simp only [dsafeEntries, Bool.and_eq_true] at h
    rcases List.mem_cons.mp hm with h1 | h2
    · obtain ⟨-, hv⟩ := Prod.mk.injEq .. ▸ h1
      exact hv ▸ h.1
    · exact ih h2 h.2

/-- On hex-wellformed input the generic normalizer `deserialize_asn1_data`
returns a value (never raises). -/

theorem deserialize_ok_of_dsafe :
    ∀ v, dsafe v = true → ∃ r, deserialize_asn1_data v = Except.ok r := by
  apply deserialize_asn1_data.induct
    (fun v => dsafe v = true → ∃ r, deserialize_asn1_data v = Except.ok r)
    (fun xs => dsafeList xs = true → ∃ r, deserializeList xs = Except.ok r)
    (fun es => dsafeEntries es = true → ∃ r, deserializeEntries es = Except.ok r)
  · intro es hv hdl hd
    simp only [dsafe, hdl] at hd
    cases hv with
    | str h =>
      obtain ⟨bs, hbs⟩ := Option.isSome_iff_exists.mp hd
      exact ⟨.bytes bs, by simp [deserialize_asn1_data, hdl, pyFromhex, fromhexChars, hbs, Except.map]⟩
    | int n => simp at hd
    | bool b => simp at hd
    | none => simp at hd
    | bytes bs => simp at hd
    | list xs => simp at hd
    | tuple xs => simp at hd
    | dict es' => simp at hd
  · intro es hne c v hech ih hd
    simp only [dsafe, hne] at hd
    obtain ⟨k, hm⟩ := extract_choice_mem hech
    obtain ⟨dv, hdv⟩ := ih (dsafeEntries_mem hm hd)
    refine ⟨.tuple [c, dv], ?_⟩
    simp only [deserialize_asn1_data, hne]
    split
    · next c' v' hech' =>
      rw [hech] at hech'
      simp only [Option.some.injEq, Prod.mk.injEq] at hech'
      obtain ⟨rfl, rfl⟩ := hech'
      simp [hdv, Except.map]
    · next hech' => rw [hech] at hech'; cases hech'
  · intro es hne hech ih hd
    simp only [dsafe, hne] at hd
    obtain ⟨r, hr⟩ := ih hd
    refine ⟨.dict r, ?_⟩
    simp only [deserialize_asn1_data, hne]
    split
    · next c' v' hech' => rw [hech] at hech'; cases hech'
    · next hech' => simp [hr, Except.map]
  · intro s b hcond hd
    simp only [dsafeList, dsafe, dsafeList, Bool.and_eq_true] at hd
    have hst : startsWith0x s.data = true := hcond.2
    have := hd.1
    rw [hst] at this
    simp only [Bool.not_true, Bool.false_or] at this
    obtain ⟨bs, hbs⟩ := Option.isSome_iff_exists.mp this
    refine ⟨.tuple [.bytes bs, b], ?_⟩
    simp [deserialize_asn1_data, hcond, fromhexChars, hbs, Except.map]
  · intro s b hcond ih hd
    simp only [dsafe] at hd
    obtain ⟨r, hr⟩ := ih hd
    exact ⟨.list r, by simp [deserialize_asn1_data, hcond, hr, Except.map]⟩
  · intro xs hne ih hd
    simp only [dsafe] at hd
    obtain ⟨r, hr⟩ := ih hd
    refine ⟨.list r, ?_⟩
    cases xs with
    | nil => simpa [deserialize_asn1_data, Except.map] using congrArg (Except.map PyVal.list) hr
    | cons x rest =>
      have hx : ∀ (s : String) (b : PyVal), x :: rest = [PyVal.str s, b] → False := hne
      cases x with
      | str s =>
        cases rest with
        | nil => simpa [deserialize_asn1_data, Except.map] using congrArg (Except.map PyVal.list) hr
        | cons y t =>
          cases t with
          | nil => exact absurd rfl (hx s y)
          | cons z t2 => simpa [deserialize_asn1_data, Except.map] using congrArg (Except.map PyVal.list) hr
      | int n => simpa [deserialize_asn1_data, Except.map] using congrArg (Except.map PyVal.list) hr
      | bool b => simpa [deserialize_asn1_data, Except.map] using congrArg (Except.map PyVal.list) hr
      | none => simpa [deserialize_asn1_data, Except.map] using congrArg (Except.map PyVal.list) hr
      | bytes bs => simpa [deserialize_asn1_data, Except.map] using congrArg (Except.map PyVal.list) hr
      | list xs2 => simpa [deserialize_asn1_data, Except.map] using congrArg (Except.map PyVal.list) hr
      | tuple xs2 => simpa [deserialize_asn1_data, Except.map] using congrArg (Except.map PyVal.list) hr
      | dict es2 => simpa [deserialize_asn1_data, Except.map] using congrArg (Except.map PyVal.list) hr
  · intro s hst hd
    simp only [dsafe, hst, Bool.not_true, Bool.false_or] at hd
    obtain ⟨bs, hbs⟩ := Option.isSome_iff_exists.mp hd
    exact ⟨.bytes bs, by simp [deserialize_asn1_data, hst, fromhexChars, hbs, Except.map]⟩
  · intro s hst hd
    exact ⟨.str s, by simp [deserialize_asn1_data, hst]⟩
  · intro v hnd hnl2 hnl hns hd
    cases v with
    | str s => exact absurd rfl (hns s)
    | int n => exact ⟨.int n, by simp [deserialize_asn1_data]⟩
    | bool b => exact ⟨.bool b, by simp [deserialize_asn1_data]⟩
    | none => exact ⟨.none, by simp [deserialize_asn1_data]⟩
    | bytes bs => exact ⟨.bytes bs, by simp [deserialize_asn1_data]⟩
    | list xs => exact absurd rfl (hnl xs)
    | tuple xs => exact ⟨.tuple xs, by simp [deserialize_asn1_data]⟩
    | dict es => exact absurd rfl (hnd es)
  · intro _
    exact ⟨[], by simp [deserializeList]⟩
  · intro v vs ih1 ih2 hd
    simp only [dsafeList, Bool.and_eq_true] at hd
    obtain ⟨dv, hdv⟩ := ih1 hd.1
    obtain ⟨rest, hrest⟩ := ih2 hd.2
    exact ⟨dv :: rest, by simp [deserializeList, hdv, hrest, Bind.bind, Except.bind, Pure.pure, Except.pure]⟩
  · intro _
    exact ⟨[], by simp [deserializeEntries]⟩
  · intro k v rest ih1 ih2 hd
    simp only [dsafeEntries, Bool.and_eq_true] at hd
    obtain ⟨dv, hdv⟩ := ih1 hd.1
    obtain ⟨r, hr⟩ := ih2 hd.2
    exact ⟨(k, dv) :: r, by simp [deserializeEntries, hdv, hr, Bind.bind, Except.bind, Pure.pure, Except.pure]⟩

/-- Wellformedness matching `octetBody`: the selected value is a parsing hex
string, or the whole input is safe for the generic normalizer. -/

def octetSafe (val data : PyVal) : Bool :=
  match val with
  | .str s =>
    match fromhexChars (padEven (cleanHexChars s)) with
    | .ok _ => true
    | .error _ => dsafe data
  | _ => dsafe data

/-- `octetBody` succeeds on `octetSafe` inputs. -/

theorem octetBody_ok {val data : PyVal} (h : octetSafe val data = true) :
    ∃ r, octetBody val data = Except.ok r := by
  cases val with
  | str s =>
    simp only [octetSafe] at h
    cases hfx : fromhexChars (padEven (cleanHexChars s)) with
    | ok bs => exact ⟨.bytes bs, by simp [octetBody, hfx]⟩
    | error e =>
      rw [hfx] at h
      simp only at h
      obtain ⟨r, hr⟩ := deserialize_ok_of_dsafe data h
      exact ⟨r, by simp [octetBody, hfx, hr]⟩
  | int n => exact deserialize_ok_of_dsafe data (by simpa [octetSafe] using h) |>.imp (fun r hr => by simp [octetBody, hr])
  | bool b => exact deserialize_ok_of_dsafe data (by simpa [octetSafe] using h) |>.imp (fun r hr => by simp [octetBody, hr])
  | none => exact deserialize_ok_of_dsafe data (by simpa [octetSafe] using h) |>.imp (fun r hr => by simp [octetBody, hr])
  | bytes bs => exact deserialize_ok_of_dsafe data (by simpa [octetSafe] using h) |>.imp (fun r hr => by simp [octetBody, hr])
  | list xs => exact deserialize_ok_of_dsafe data (by simpa [octetSafe] using h) |>.imp (fun r hr => by simp [octetBody, hr])
  | tuple xs => exact deserialize_ok_of_dsafe data (by simpa [octetSafe] using h) |>.imp (fun r hr => by simp [octetBody, hr])
  | dict es => exact deserialize_ok_of_dsafe data (by simpa [octetSafe] using h) |>.imp (fun r hr => by simp [octetBody, hr])

/-- Wellformedness matching `bitBody`. -/

def bitSafe (h data : PyVal) : Bool :=
  match h with
  | .str s =>
    match fromhexChars (padEven (cleanHexChars s)) with
    | .ok _ => true
    | .error _ => dsafe data
  | _ => dsafe data

/-- `bitBody` succeeds on `bitSafe` inputs. -/

theorem bitBody_ok {h data : PyVal} (n : Int) (hs : bitSafe h data = true) :
    ∃ r, bitBody h data n = Except.ok r := by
  cases h with
  | str s =>
    simp only [bitSafe] at hs
    cases hfx : fromhexChars (padEven (cleanHexChars s)) with
    | ok bs => exact ⟨.tuple [.bytes bs, .int n], by simp [bitBody, hfx]⟩
    | error e =>
      rw [hfx] at hs
      simp only at hs
      obtain ⟨r, hr⟩ := deserialize_ok_of_dsafe data hs
      exact ⟨r, by simp [bitBody, hfx, hr]⟩
  | int m => exact deserialize_ok_of_dsafe data (by simpa [bitSafe] using hs) |>.imp (fun r hr => by simp [bitBody, hr])
  | bool b => exact deserialize_ok_of_dsafe data (by simpa [bitSafe] using hs) |>.imp (fun r hr => by simp [bitBody, hr])
  | none => exact deserialize_ok_of_dsafe data (by simpa [bitSafe] using hs) |>.imp (fun r hr => by simp [bitBody, hr])
  | bytes bs => exact deserialize_ok_of_dsafe data (by simpa [bitSafe] using hs) |>.imp (fun r hr => by simp [bitBody, hr])
  | list xs => exact deserialize_ok_of_dsafe data (by simpa [bitSafe] using hs) |>.imp (fun r hr => by simp [bitBody, hr])
  | tuple xs => exact deserialize_ok_of_dsafe data (by simpa [bitSafe] using hs) |>.imp (fun r hr => by simp [bitBody, hr])
  | dict es => exact deserialize_ok_of_dsafe data (by simpa [bitSafe] using hs) |>.imp (fun r hr => by simp [bitBody, hr])

mutual

/-- Hex-wellformedness of a wire value for `convert_to_python_asn1` at a
given type: every `bytes.fromhex`/`int()` call the converter can reach
succeeds, including inside generic-normalizer fallbacks. -/

def csafe (data : PyVal) (ty : Asn1Type) : Bool :=
  match ty with
  | .Choice ms =>
    match data with
    | .dict es =>
      match hfm2 : findChoiceMember ms es with
      | some (_, mt, v) => csafe v mt
      | Option.none => dsafe data
    | .tuple [_, d1] => csafe d1 (Asn1Type.Choice ms)
    | .list [_, d1] => csafe d1 (Asn1Type.Choice ms)
    | _ => dsafe data
  | .Sequence ms | .Set ms =>
    match data with
    | .dict es => csafeMembers ms es && dsafeEntries es
    | _ => dsafe data
  | .SequenceOf elemT | .SetOf elemT =>
    match data with
    | .list xs =>
      match elemT with
      | some et => csafeList xs et
      | Option.none => dsafe data
    | _ => dsafe data
  | .OctetString => octetSafe (octetVal data) data
  | .BitString =>
    match data with
    | .list (h :: b2 :: _) | .tuple (h :: b2 :: _) =>
      (match pyInt b2 with | .ok _ => true | .error _ => false) && bitSafe h data
    | .str s =>
      match fromhexChars (padEven (cleanHexChars s)) with
      | .ok _ => true
      | .error _ => dsafe (PyVal.str s)
    | _ => dsafe data
  | .Other => dsafe data
termination_by (sizeOf data, 0)
decreasing_by
  all_goals simp_wf
  all_goals first
    | omega
    | exact Prod.Lex.left _ _ (by omega)
    | exact Prod.Lex.left _ _ (by have := sizeOf_findChoiceMember_lt hfm2; omega)

def csafeMembers (ms : List (String × Asn1Type)) (es : List (String × PyVal)) : Bool :=
  match ms with
  | [] => true
  | (n, t) :: rest =>
    match hdl2 : dlookup es n with
    | some v => csafe v t && csafeMembers rest es
    | Option.none => csafeMembers rest es
termination_by (sizeOf es, sizeOf ms)
decreasing_by
  all_goals simp_wf
  all_goals first
    | exact Prod.Lex.left _ _ (by have := sizeOf_dlookup_lt hdl2; omega)
    | exact Prod.Lex.right _ (by omega)

def csafeList (xs : List PyVal) (et : Asn1Type) : Bool :=
  match xs with
  | [] => true
  | x :: rest => csafe x et && csafeList rest et
termination_by (sizeOf xs, 0)
decreasing_by
  all_goals simp_wf
  all_goals first
    | exact Prod.Lex.left _ _ (by omega)
    | exact Prod.Lex.right _ (by omega)

end

/-- The extras loop succeeds on hex-wellformed dict values. -/

theorem deserializeExtras_ok {es : List (String × PyVal)} (done : List String)
    (h : dsafeEntries es = true) : ∃ r, deserializeExtras done es = Except.ok r := by
  induction es with
  | nil => exact ⟨[], by simp [deserializeExtras]⟩
  | cons e rest ih =>
    obtain ⟨k, v⟩ := e
    simp only [dsafeEntries, Bool.and_eq_true] at h
    obtain ⟨r, hr⟩ := ih h.2
    by_cases hk : k ∈ done
    · have hk' : done.contains k = true := by simpa using hk
      exact ⟨r, by simp [deserializeExtras, hk, hk', hr]⟩
    · have hk' : done.contains k = false := by simpa using hk
      obtain ⟨dv, hdv⟩ := deserialize_ok_of_dsafe v h.1
      exact ⟨(k, dv) :: r, by
        simp [deserializeExtras, hk, hk', hdv, hr, Bind.bind, Except.bind, Pure.pure, Except.pure]⟩

/-!
Fallback equations: whenever none of the type-specific shapes matches, the
converter hands the value to the generic normalizer unchanged.
-/

theorem convert_choice_fallback (data : PyVal) (ms : List (String × Asn1Type))
    (hnd : ∀ es, data = PyVal.dict es → False)
    (hnt : ∀ d0 d1, data = PyVal.tuple [d0, d1] → False)
    (hnl : ∀ d0 d1, data = PyVal.list [d0, d1] → False) :
    convert_to_python_asn1 data (Asn1Type.Choice ms) = deserialize_asn1_data data := by
  cases data with
  | dict es => exact absurd rfl (hnd es)
  | tuple xs =>
    cases xs with
    | nil => simp [convert_to_python_asn1]
    | cons a t =>
      cases t with
      | nil => simp [convert_to_python_asn1]
      | cons b t2 =>
        cases t2 with
        | nil => exact absurd rfl (hnt a b)
        | cons c t3 => simp [convert_to_python_asn1]
  | list xs =>
    cases xs with
    | nil => simp [convert_to_python_asn1]
    | cons a t =>
      cases t with
      | nil => simp [convert_to_python_asn1]
      | cons b t2 =>
        cases t2 with
        | nil => exact absurd rfl (hnl a b)
        | cons c t3 => simp [convert_to_python_asn1]
  | str s => simp [convert_to_python_asn1]
  | int n => simp [convert_to_python_asn1]
  | bool b => simp [convert_to_python_asn1]
  | none => simp [convert_to_python_asn1]
  | bytes bs => simp [convert_to_python_asn1]

theorem convert_seq_fallback (data : PyVal) (ms : List (String × Asn1Type))
    (hnd : ∀ es, data = PyVal.dict es → False) :
    convert_to_python_asn1 data (Asn1Type.Sequence ms) = deserialize_asn1_data data := by
  cases data <;> first
    | exact absurd rfl (hnd _)
    | simp [convert_to_python_asn1]

theorem convert_set_fallback (data : PyVal) (ms : List (String × Asn1Type))
    (hnd : ∀ es, data = PyVal.dict es → False) :
    convert_to_python_asn1 data (Asn1Type.Set ms) = deserialize_asn1_data data := by
  cases data <;> first
    | exact absurd rfl (hnd _)
    | simp [convert_to_python_asn1]

theorem convert_seqof_fallback (data : PyVal) (elemT : Option Asn1Type)
    (hnl : ∀ xs, data = PyVal.list xs → False) :
    convert_to_python_asn1 data (Asn1Type.SequenceOf elemT) = deserialize_asn1_data data := by
  cases data <;> first
    | exact absurd rfl (hnl _)
    | simp [convert_to_python_asn1]

theorem convert_setof_fallback (data : PyVal) (elemT : Option Asn1Type)
    (hnl : ∀ xs, data = PyVal.list xs → False) :
    convert_to_python_asn1 data (Asn1Type.SetOf elemT) = deserialize_asn1_data data := by
  cases data <;> first
    | exact absurd rfl (hnl _)
    | simp [convert_to_python_asn1]

theorem convert_bitstring_fallback (data : PyVal)
    (hnl : ∀ h b2 t, data = PyVal.list (h :: b2 :: t) → False)
    (hnt : ∀ h b2 t, data = PyVal.tuple (h :: b2 :: t) → False)
    (hns : ∀ s, data = PyVal.str s → False) :
    convert_to_python_asn1 data Asn1Type.BitString = deserialize_asn1_data data := by
  cases data with
  | str s => exact absurd rfl (hns s)
  | list xs =>
    cases xs with
    | nil => simp [convert_to_python_asn1]
    | cons a t =>
      cases t with
      | nil => simp [convert_to_python_asn1]
      | cons b t2 => exact absurd rfl (hnl a b t2)
  | tuple xs =>
    cases xs with
    | nil => simp [convert_to_python_asn1]
    | cons a t =>
      cases t with
      | nil => simp [convert_to_python_asn1]
      | cons b t2 => exact absurd rfl (hnt a b t2)
  | dict es => simp [convert_to_python_asn1]
  | int n => simp [convert_to_python_asn1]
  | bool b => simp [convert_to_python_asn1]
  | none => simp [convert_to_python_asn1]
  | bytes bs => simp [convert_to_python_asn1]

theorem csafe_choice_fallback (data : PyVal) (ms : List (String × Asn1Type))
    (hnd : ∀ es, data = PyVal.dict es → False)
    (hnt : ∀ d0 d1, data = PyVal.tuple [d0, d1] → False)
    (hnl : ∀ d0 d1, data = PyVal.list [d0, d1] → False) :
    csafe data (Asn1Type.Choice ms) = dsafe data := by
  cases data with
  | dict es => exact absurd rfl (hnd es)
  | tuple xs =>
    cases xs with
    | nil => simp [csafe]
    | cons a t =>
      cases t with
      | nil => simp [csafe]
      | cons b t2 =>
        cases t2 with
        | nil => exact absurd rfl (hnt a b)
        | cons c t3 => simp [csafe]
  | list xs =>
    cases xs with
    | nil => simp [csafe]
    | cons a t =>
      cases t with
      | nil => simp [csafe]
      | cons b t2 =>
        cases t2 with
        | nil => exact absurd rfl (hnl a b)
        | cons c t3 => simp [csafe]
  | str s => simp [csafe]
  | int n => simp [csafe]
  | bool b => simp [csafe]
  | none => simp [csafe]
  | bytes bs => simp [csafe]

theorem csafe_seq_fallback (data : PyVal) (ms : List (String × Asn1Type))
    (hnd : ∀ es, data = PyVal.dict es → False) :
    csafe data (Asn1Type.Sequence ms) = dsafe data := by
  cases data <;> first
    | exact absurd rfl (hnd _)
    | simp [csafe]

theorem csafe_set_fallback (data : PyVal) (ms : List (String × Asn1Type))
    (hnd : ∀ es, data = PyVal.dict es → False) :
    csafe data (Asn1Type.Set ms) = dsafe data := by
  cases data <;> first
    | exact absurd rfl (hnd _)
    | simp [csafe]

theorem csafe_seqof_fallback (data : PyVal) (elemT : Option Asn1Type)
    (hnl : ∀ xs, data = PyVal.list xs → False) :
    csafe data (Asn1Type.SequenceOf elemT) = dsafe data := by
  cases data <;> first
    | exact absurd rfl (hnl _)
    | simp [csafe]

theorem csafe_setof_fallback (data : PyVal) (elemT : Option Asn1Type)
    (hnl : ∀ xs, data = PyVal.list xs → False) :
    csafe data (Asn1Type.SetOf elemT) = dsafe data := by
  cases data <;> first
    | exact absurd rfl (hnl _)
    | simp [csafe]

theorem csafe_bitstring_fallback (data : PyVal)
    (hnl : ∀ h b2 t, data = PyVal.list (h :: b2 :: t) → False)
    (hnt : ∀ h b2 t, data = PyVal.tuple (h :: b2 :: t) → False)
    (hns : ∀ s, data = PyVal.str s → False) :
    csafe data Asn1Type.BitString = dsafe data := by
  cases data with
  | str s => exact absurd rfl (hns s)
  | list xs =>
    cases xs with
    | nil => simp [csafe]
    | cons a t =>
      cases t with
      | nil => simp [csafe]
      | cons b t2 => exact absurd rfl (hnl a b t2)
  | tuple xs =>
    cases xs with
    | nil => simp [csafe]
    | cons a t =>
      cases t with
      | nil => simp [csafe]
      | cons b t2 => exact absurd rfl (hnt a b t2)
  | dict es => simp [csafe]
  | int n => simp [csafe]
  | bool b => simp [csafe]
  | none => simp [csafe]
  | bytes bs => simp [csafe]

/-- On a `csafe` input the converter returns a value (never raises), for
every compiled type. -/

theorem convert_ok_of_csafe :
    ∀ data ty, csafe data ty = true → ∃ r, convert_to_python_asn1 data ty = Except.ok r := by
  apply convert_to_python_asn1.induct
    (fun data ty => csafe data ty = true → ∃ r, convert_to_python_asn1 data ty = Except.ok r)
    (fun xs et => csafeList xs et = true → ∃ r, convertList xs et = Except.ok r)
    (fun ms es => csafeMembers ms es = true → ∃ r, convertMembers ms es = Except.ok r)
  · intro ms es n mt v hfm ih hcs
    simp only [csafe] at hcs
    split at hcs
    · next heq =>
      rw [hfm] at heq
      simp only [Option.some.injEq, Prod.mk.injEq] at heq
      obtain ⟨-, h2, h3⟩ := heq
      subst h2; subst h3
      obtain ⟨cv, hcv⟩ := ih hcs
      refine ⟨.tuple [.str n, cv], ?_⟩
      simp only [convert_to_python_asn1]
      split
      · next heq2 =>
        rw [hfm] at heq2
        simp only [Option.some.injEq, Prod.mk.injEq] at heq2
        obtain ⟨h1, h2, h3⟩ := heq2
        subst h1; subst h2; subst h3
        simp [hcv, Except.map]
      · next heq2 => rw [hfm] at heq2; cases heq2
    · next heq => rw [hfm] at heq; cases heq
  · intro ms es hfm hcs
    simp only [csafe] at hcs
    split at hcs
    · next heq => rw [hfm] at heq; cases heq
    · next heq =>
      obtain ⟨r, hr⟩ := deserialize_ok_of_dsafe _ hcs
      refine ⟨r, ?_⟩
      simp only [convert_to_python_asn1]
      split
      · next heq2 => rw [hfm] at heq2; cases heq2
      · exact hr
  · intro ms d0 d1 ih hcs
    simp only [csafe] at hcs
    obtain ⟨cv, hcv⟩ := ih hcs
    exact ⟨.tuple [d0, cv], by simp [convert_to_python_asn1, hcv, Except.map]⟩
  · intro ms d0 d1 ih hcs
    simp only [csafe] at hcs
    obtain ⟨cv, hcv⟩ := ih hcs
    exact ⟨.tuple [d0, cv], by simp [convert_to_python_asn1, hcv, Except.map]⟩
  · intro data ms hnd hnt hnl hcs
    rw [csafe_choice_fallback data ms hnd hnt hnl] at hcs
    obtain ⟨r, hr⟩ := deserialize_ok_of_dsafe _ hcs
    exact ⟨r, by rw [convert_choice_fallback data ms hnd hnt hnl]; exact hr⟩
  · intro ms es ih hcs
    simp only [csafe, Bool.and_eq_true] at hcs
    obtain ⟨conv, hconv⟩ := ih hcs.1
    obtain ⟨ex, hex⟩ := deserializeExtras_ok (conv.map Prod.fst) hcs.2
    exact ⟨.dict (conv ++ ex), by
      simp [convert_to_python_asn1, hconv, hex, Bind.bind, Except.bind, Pure.pure, Except.pure]⟩
  · intro data ms hnd hcs
    rw [csafe_seq_fallback data ms hnd] at hcs
    obtain ⟨r, hr⟩ := deserialize_ok_of_dsafe _ hcs
    exact ⟨r, by rw [convert_seq_fallback data ms hnd]; exact hr⟩
  · intro ms es ih hcs
    simp only [csafe, Bool.and_eq_true] at hcs
    obtain ⟨conv, hconv⟩ := ih hcs.1
    obtain ⟨ex, hex⟩ := deserializeExtras_ok (conv.map Prod.fst) hcs.2
    exact ⟨.dict (conv ++ ex), by
      simp [convert_to_python_asn1, hconv, hex, Bind.bind, Except.bind, Pure.pure, Except.pure]⟩
  · intro data ms hnd hcs
    rw [csafe_set_fallback data ms hnd] at hcs
    obtain ⟨r, hr⟩ := deserialize_ok_of_dsafe _ hcs
    exact ⟨r, by rw [convert_set_fallback data ms hnd]; exact hr⟩
  · intro xs et ih hcs
    simp only [csafe] at hcs
    obtain ⟨r, hr⟩ := ih hcs
    exact ⟨.list r, by simp [convert_to_python_asn1, hr, Except.map]⟩
  · intro xs hcs
    simp only [csafe] at hcs
    obtain ⟨r, hr⟩ := deserialize_ok_of_dsafe _ hcs
    exact ⟨r, by simp [convert_to_python_asn1, hr]⟩
  · intro data elemT hnl hcs
    rw [csafe_seqof_fallback data elemT hnl] at hcs
    obtain ⟨r, hr⟩ := deserialize_ok_of_dsafe _ hcs
    exact ⟨r, by rw [convert_seqof_fallback data elemT hnl]; exact hr⟩
  · intro xs et ih hcs
    simp only [csafe] at hcs
    obtain ⟨r, hr⟩ := ih hcs
    exact ⟨.list r, by simp [convert_to_python_asn1, hr, Except.map]⟩
  · intro xs hcs
    simp only [csafe] at hcs
    obtain ⟨r, hr⟩ := deserialize_ok_of_dsafe _ hcs
    exact ⟨r, by simp [convert_to_python_asn1, hr]⟩
  · intro data elemT hnl hcs
    rw [csafe_setof_fallback data elemT hnl] at hcs
    obtain ⟨r, hr⟩ := deserialize_ok_of_dsafe _ hcs
    exact ⟨r, by rw [convert_setof_fallback data elemT hnl]; exact hr⟩
  · intro data hcs
    simp only [csafe] at hcs
    obtain ⟨r, hr⟩ := octetBody_ok hcs
    exact ⟨r, by simp only [convert_to_python_asn1]; exact hr⟩
  · intro h b2 tail hcs
    simp only [csafe, Bool.and_eq_true] at hcs
    obtain ⟨hpy1, hbit⟩ := hcs
    cases hpy : pyInt b2 with
    | error e => rw [hpy] at hpy1; cases hpy1
    | ok nn =>
      obtain ⟨r, hr⟩ := bitBody_ok nn hbit
      exact ⟨r, by simp [convert_to_python_asn1, hpy, hr, Bind.bind, Except.bind]⟩
  · intro h b2 tail hcs
    simp only [csafe, Bool.and_eq_true] at hcs
    obtain ⟨hpy1, hbit⟩ := hcs
    cases hpy : pyInt b2 with
    | error e => rw [hpy] at hpy1; cases hpy1
    | ok nn =>
      obtain ⟨r, hr⟩ := bitBody_ok nn hbit
      exact ⟨r, by simp [convert_to_python_asn1, hpy, hr, Bind.bind, Except.bind]⟩
  · intro s bs hfx hcs
    exact ⟨.tuple [.bytes bs, .int (8 * bs.length)], by simp [convert_to_python_asn1, hfx]⟩
  · intro s e hfx hcs
    simp only [csafe, hfx] at hcs
    obtain ⟨r, hr⟩ := deserialize_ok_of_dsafe _ hcs
    exact ⟨r, by simp [convert_to_python_asn1, hfx, hr]⟩
  · intro data hnl hnt hns hcs
    rw [csafe_bitstring_fallback data hnl hnt hns] at hcs
    obtain ⟨r, hr⟩ := deserialize_ok_of_dsafe _ hcs
    exact ⟨r, by rw [convert_bitstring_fallback data hnl hnt hns]; exact hr⟩
  · intro data hcs
    simp only [csafe] at hcs
    obtain ⟨r, hr⟩ := deserialize_ok_of_dsafe _ hcs
    exact ⟨r, by simp [convert_to_python_asn1, hr]⟩
  · intro et hcs
    exact ⟨[], by simp [convertList]⟩
  · intro et v vs ih1 ih2 hcs
    simp only [csafeList, Bool.and_eq_true] at hcs
    obtain ⟨cv, hcv⟩ := ih1 hcs.1
    obtain ⟨r, hr⟩ := ih2 hcs.2
    exact ⟨cv :: r, by simp [convertList, hcv, hr, Bind.bind, Except.bind, Pure.pure, Except.pure]⟩
  · intro es hcs
    exact ⟨[], by simp [convertMembers]⟩
  · intro es n t rest v hdl ih1 ih2 hcs
    simp only [csafeMembers] at hcs
    split at hcs
    · next heq =>
      rw [hdl] at heq
      simp only [Option.some.injEq] at heq
      subst heq
      simp only [Bool.and_eq_true] at hcs
      obtain ⟨cv, hcv⟩ := ih1 hcs.1
      obtain ⟨r, hr⟩ := ih2 hcs.2
      refine ⟨(n, cv) :: r, ?_⟩
      simp only [convertMembers]
      split
      · next heq2 =>
        rw [hdl] at heq2
        simp only [Option.some.injEq] at heq2
        subst heq2
        simp [hcv, hr, Bind.bind, Except.bind, Pure.pure, Except.pure]
      · next heq2 => rw [hdl] at heq2; cases heq2
    · next heq => rw [hdl] at heq; cases heq
  · intro es n t rest hdl ih hcs
    simp only [csafeMembers] at hcs
    split at hcs
    · next heq => rw [hdl] at heq; cases heq
    · next heq =>
      obtain ⟨r, hr⟩ := ih hcs
      refine ⟨r, ?_⟩
      simp only [convertMembers]
      split
      · next heq2 => rw [hdl] at heq2; cases heq2
      · exact hr

/-!
Claim theorems for the Value Converter.
-/

/-!
Protocol Registry — `AsnManager._load_protocols_locked`
(src/backend/core/manager.py, lines 186-354).

The filesystem scan and the Codec Engine are abstracted: each configured
location is pre-classified the way the source classifies it (explicit schema
file / directory with direct schema files and first-level subdirectories /
skipped), and each discovered protocol carries its sorted schema file list,
its compile outcome (`asn1tools.compile_files` result or the caught
exception's message) and the example files that load successfully.
Python dicts are modelled as insertion-ordered association lists with
`dictSet`/`dictGet`.
-/

/-- Abstract compiled `Specification` handle: an opaque identity plus its
declared type names (`compiler.types.keys()`). -/

structure SpecH where
  id : Nat
  typeNames : List String

/-- `ProtocolMetadata` (manager.py, lines 22-32). -/

structure ProtocolMetadata where
  name : String
  files : List String
  types : List String
  is_bundled : Bool

/-- Python-dict set: update in place if the key exists, else append. -/

def dictSet {α : Type} : List (String × α) → String → α → List (String × α)
  | [], k, v => [(k, v)]
  | (k', v') :: rest, k, v =>
    if k' = k then (k, v) :: rest else (k', v') :: dictSet rest k v

/-- Python-dict lookup. -/

def dictGet {α : Type} : List (String × α) → String → Option α
  | [], _ => Option.none
  | (k', v') :: rest, k => if k' = k then some v' else dictGet rest k

/-- The three registry maps owned by `AsnManager`. -/

structure RegistryState where
  compilers : List (String × SpecH)
  metadata : List (String × ProtocolMetadata)
  examples : List (String × List (String × PyVal))

/-- Result of `asn1tools.compile_files` (or `_compile_with_warnings`) for one
protocol: the compiled handle, or the message of the caught exception. -/

inductive CompileOutcome where
  | ok (spec : SpecH)
  | err (msg : String)

/-- A protocol source as discovered by the scan: name, sorted schema file
list, compile outcome, and the example files that parse (keyed by stem). -/

structure ProtoSrc where
  name : String
  files : List String
  outcome : CompileOutcome
  examples : List (String × PyVal)

/-- One configured location as classified by `_load_protocols_locked`:
an explicit schema file; a directory with its bundled-origin flag, an
optional direct protocol (present iff the directory itself contains schema
files) and the first-level subdirectories that contain schema files; or a
location that is neither (skipped). -/

inductive Location where
  | file (src : ProtoSrc)
  | dir (isBundled : Bool) (direct : Option ProtoSrc) (subdirs : List ProtoSrc)
  | skipped

/-- Insertion sort on strings (model of Python `sorted` for type names). -/

def insertSorted (x : String) : List String → List String
  | [] => [x]
  | y :: ys => if x ≤ y then x :: y :: ys else y :: insertSorted x ys

def sortStrs : List String → List String
  | [] => []
  | x :: xs => insertSorted x (sortStrs xs)

/-- The in-progress new state built by `_load_protocols_locked`. -/

structure LoadAcc where
  newCompilers : List (String × SpecH)
  newMetadata : List (String × ProtocolMetadata)
  newExamples : List (String × List (String × PyVal))
  errors : List (String × String)

/-- The explicit-single-file branch (manager.py, lines 222-242): on success
record compiler and metadata (never bundled, no examples); on failure record
the error. No retention of a previous version in this branch. -/

def processFileLoc (acc : LoadAcc) (src : ProtoSrc) : LoadAcc :=
  match src.outcome with
  | .ok spec =>
    { acc with
      newCompilers := dictSet acc.newCompilers src.name spec
      newMetadata := dictSet acc.newMetadata src.name
        ⟨src.name, src.files, sortStrs spec.typeNames, false⟩ }
  | .err msg => { acc with errors := dictSet acc.errors src.name msg }

/-- The direct-protocol-directory branch (manager.py, lines 258-292): on
success record compiler, metadata and (if any loaded) examples; on failure
record the error. No retention of a previous version in this branch. -/

def processDirectProto (isBundled : Bool) (acc : LoadAcc) (src : ProtoSrc) : LoadAcc :=
  match src.outcome with
  | .ok spec =>
    let acc1 := { acc with
      newCompilers := dictSet acc.newCompilers src.name spec
      newMetadata := dictSet acc.newMetadata src.name
        ⟨src.name, src.files, sortStrs spec.typeNames, isBundled⟩ }
    if src.examples.isEmpty then acc1
    else { acc1 with newExamples := dictSet acc1.newExamples src.name src.examples }
  | .err msg => { acc with errors := dictSet acc.errors src.name msg }

/-- The optional direct protocol of a directory location, processed first
(`acc` unchanged when the directory has no direct schema files). -/

def processDirectOpt (isBundled : Bool) (acc : LoadAcc) : Option ProtoSrc → LoadAcc
  | some d => processDirectProto isBundled acc d
  | Option.none => acc

/-- The subdirectory branch (manager.py, lines 298-345): like the direct
branch on success; on failure record the error and, if the protocol has a
previously compiled version, retain its old compiler, metadata and examples.
(The source reads `self.metadata[protocol]` directly, which presupposes the
invariant that `compilers` and `metadata` share their keys; the model uses a
default for the unreachable missing-metadata case.) -/

def processSubdirProto (old : RegistryState) (isBundled : Bool)
    (acc : LoadAcc) (src : ProtoSrc) : LoadAcc :=
  match src.outcome with
  | .ok spec =>
    let acc1 := { acc with
      newCompilers := dictSet acc.newCompilers src.name spec
      newMetadata := dictSet acc.newMetadata src.name
        ⟨src.name, src.files, sortStrs spec.typeNames, isBundled⟩ }
    if src.examples.isEmpty then acc1
    else { acc1 with newExamples := dictSet acc1.newExamples src.name src.examples }
  | .err msg =>
    let acc1 := { acc with errors := dictSet acc.errors src.name msg }
    match dictGet old.compilers src.name with
    | some oldSpec =>
      let acc2 := { acc1 with
        newCompilers := dictSet acc1.newCompilers src.name oldSpec
        newMetadata := dictSet acc1.newMetadata src.name
          ((dictGet old.metadata src.name).getD ⟨src.name, [], [], false⟩) }
      match dictGet old.examples src.name with
      | some ex => { acc2 with newExamples := dictSet acc2.newExamples src.name ex }
      | Option.none => acc2
    | Option.none => acc1

/-- Process one configured location: explicit file, or directory (direct
protocol first, then every schema-bearing first-level subdirectory), or
skip. -/

def processLocation (old : RegistryState) (acc : LoadAcc) : Location → LoadAcc
  | .file src => processFileLoc acc src
  | .dir isBundled direct subdirs =>
    subdirs.foldl (processSubdirProto old isBundled) (processDirectOpt isBundled acc direct)
  | .skipped => acc

/-- `_load_protocols_locked`: build fresh maps from all locations, then swap
them in; return the name → message error map. Never raises: every compile
failure is caught and recorded. -/

def load_protocols_locked (old : RegistryState) (locs : List Location) :
    RegistryState × List (String × String) :=
  let acc := locs.foldl (processLocation old) ⟨[], [], [], []⟩
  (⟨acc.newCompilers, acc.newMetadata, acc.newExamples⟩, acc.errors)

/-- Name contributed by an optional direct protocol. -/

def directNames : Option ProtoSrc → List String
  | some d => [d.name]
  | Option.none => []

/-- The protocol names a location contributes (in processing order). -/

def locationProtoNames : Location → List String
  | .file src => [src.name]
  | .dir _ direct subdirs => directNames direct ++ subdirs.map ProtoSrc.name
  | .skipped => []

def allProtoNames : List Location → List String
  | [] => []
  | l :: rest => locationProtoNames l ++ allProtoNames rest

/-- `loc` discovers the protocol source `src` with bundled flag `ib`, in any
of the three discovery modes (an explicit file location never has co-located
example files: the source loads examples only in the directory branches). -/

def discoversProto (loc : Location) (src : ProtoSrc) (ib : Bool) : Prop :=
  (loc = Location.file src ∧ ib = false ∧ src.examples = []) ∨
  (∃ subdirs, loc = Location.dir ib (some src) subdirs) ∨
  (∃ direct subdirs, loc = Location.dir ib direct subdirs ∧ src ∈ subdirs)

theorem dictGet_dictSet_self {α : Type} (m : List (String × α)) (k : String) (v : α) :
    dictGet (dictSet m k v) k = some v := by
  induction m with
  | nil => simp [dictSet, dictGet]
  | cons e rest ih =>
    obtain ⟨k', v'⟩ := e
    by_cases h : k' = k
    · simp [dictSet, dictGet, h]
    · simp [dictSet, dictGet, h, ih]

theorem dictGet_dictSet_ne {α : Type} (m : List (String × α)) {k k' : String} (v : α)
    (h : k' ≠ k) : dictGet (dictSet m k' v) k = dictGet m k := by
  induction m with
  | nil => simp [dictSet, dictGet, h]
  | cons e rest ih =>
    obtain ⟨k'', v''⟩ := e
    by_cases h2 : k'' = k'
    · subst h2
      simp [dictSet, dictGet, h]
    · simp [dictSet, dictGet, h2, ih]

/-- Occurrence count of a protocol name in a discovery order. -/

def countName (n : String) : List String → Nat
  | [] => 0
  | x :: xs => (if x = n then 1 else 0) + countName n xs

theorem countName_append (n : String) (xs ys : List String) :
    countName n (xs ++ ys) = countName n xs + countName n ys := by
  induction xs with
  | nil => simp [countName]
  | cons x xs ih => simp [countName, ih]; omega

theorem not_mem_of_countName_zero {n : String} {xs : List String}
    (h : countName n xs = 0) : n ∉ xs := by
  induction xs with
  | nil => simp
  | cons x xs ih =>
    simp only [countName] at h
    by_cases hx : x = n
    · rw [hx] at h; simp at h
    · simp only [List.mem_cons]
      rintro (rfl | hm)
      · exact hx rfl
      · exact ih (by omega) hm

/-- The four association maps of two accumulators agree at key `k`. -/

def accAgreesAt (a b : LoadAcc) (k : String) : Prop :=
  dictGet a.newCompilers k = dictGet b.newCompilers k ∧
  dictGet a.newMetadata k = dictGet b.newMetadata k ∧
  dictGet a.newExamples k = dictGet b.newExamples k ∧
  dictGet a.errors k = dictGet b.errors k

theorem accAgreesAt_refl (a : LoadAcc) (k : String) : accAgreesAt a a k :=
  ⟨rfl, rfl, rfl, rfl⟩

theorem accAgreesAt_trans {a b c : LoadAcc} {k : String}
    (h1 : accAgreesAt a b k) (h2 : accAgreesAt b c k) : accAgreesAt a c k :=
  ⟨h1.1.trans h2.1, h1.2.1.trans h2.2.1, h1.2.2.1.trans h2.2.2.1, h1.2.2.2.trans h2.2.2.2⟩

theorem processFileLoc_preserves (acc : LoadAcc) (src : ProtoSrc) {k : String}
    (h : src.name ≠ k) : accAgreesAt (processFileLoc acc src) acc k := by
  cases hout : src.outcome with
  | ok spec => exact ⟨by simp [processFileLoc, hout, dictGet_dictSet_ne _ _ h],
      by simp [processFileLoc, hout, dictGet_dictSet_ne _ _ h], by simp [processFileLoc, hout],
      by simp [processFileLoc, hout]⟩
  | err msg => exact ⟨by simp [processFileLoc, hout], by simp [processFileLoc, hout],
      by simp [processFileLoc, hout], by simp [processFileLoc, hout, dictGet_dictSet_ne _ _ h]⟩

theorem processDirectProto_preserves (ib : Bool) (acc : LoadAcc) (src : ProtoSrc) {k : String}
    (h : src.name ≠ k) : accAgreesAt (processDirectProto ib acc src) acc k := by
  cases hout : src.outcome with
  | ok spec =>
    by_cases hx : src.examples.isEmpty
    · exact ⟨by simp [processDirectProto, hout, hx, dictGet_dictSet_ne _ _ h],
        by simp [processDirectProto, hout, hx, dictGet_dictSet_ne _ _ h],
        by simp [processDirectProto, hout, hx], by simp [processDirectProto, hout, hx]⟩
    · exact ⟨by simp [processDirectProto, hout, hx, dictGet_dictSet_ne _ _ h],
        by simp [processDirectProto, hout, hx, dictGet_dictSet_ne _ _ h],
        by simp [processDirectProto, hout, hx, dictGet_dictSet_ne _ _ h],
        by simp [processDirectProto, hout, hx]⟩
  | err msg => exact ⟨by simp [processDirectProto, hout], by simp [processDirectProto, hout],
      by simp [processDirectProto, hout], by simp [processDirectProto, hout, dictGet_dictSet_ne _ _ h]⟩

theorem processSubdirProto_preserves (old : RegistryState) (ib : Bool) (acc : LoadAcc)
    (src : ProtoSrc) {k : String} (h : src.name ≠ k) :
    accAgreesAt (processSubdirProto old ib acc src) acc k := by
  cases hout : src.outcome with
  | ok spec =>
    by_cases hx : src.examples.isEmpty
    · exact ⟨by simp [processSubdirProto, hout, hx, dictGet_dictSet_ne _ _ h],
        by simp [processSubdirProto, hout, hx, dictGet_dictSet_ne _ _ h],
        by simp [processSubdirProto, hout, hx], by simp [processSubdirProto, hout, hx]⟩
    · exact ⟨by simp [processSubdirProto, hout, hx, dictGet_dictSet_ne _ _ h],
        by simp [processSubdirProto, hout, hx, dictGet_dictSet_ne _ _ h],
        by simp [processSubdirProto, hout, hx, dictGet_dictSet_ne _ _ h],
        by simp [processSubdirProto, hout, hx]⟩
  | err msg =>
    cases hold : dictGet old.compilers src.name with
    | none => exact ⟨by simp [processSubdirProto, hout, hold],
        by simp [processSubdirProto, hout, hold], by simp [processSubdirProto, hout, hold],
        by simp [processSubdirProto, hout, hold, dictGet_dictSet_ne _ _ h]⟩
    | some oldSpec =>
      cases holdx : dictGet old.examples src.name with
      | none => exact ⟨by simp [processSubdirProto, hout, hold, holdx, dictGet_dictSet_ne _ _ h],
          by simp [processSubdirProto, hout, hold, holdx, dictGet_dictSet_ne _ _ h],
          by simp [processSubdirProto, hout, hold, holdx],
          by simp [processSubdirProto, hout, hold, holdx, dictGet_dictSet_ne _ _ h]⟩
      | some ex => exact ⟨by simp [processSubdirProto, hout, hold, holdx, dictGet_dictSet_ne _ _ h],
          by simp [processSubdirProto, hout, hold, holdx, dictGet_dictSet_ne _ _ h],
          by simp [processSubdirProto, hout, hold, holdx, dictGet_dictSet_ne _ _ h],
          by simp [processSubdirProto, hout, hold, holdx, dictGet_dictSet_ne _ _ h]⟩

theorem foldl_subdirs_preserves (old : RegistryState) (ib : Bool) (subdirs : List ProtoSrc)
    (acc : LoadAcc) {k : String} (h : k ∉ subdirs.map ProtoSrc.name) :
    accAgreesAt (subdirs.foldl (processSubdirProto old ib) acc) acc k := by
  induction subdirs generalizing acc with
  | nil => exact accAgreesAt_refl _ _
  | cons s rest ih =>
    simp only [List.map_cons, List.mem_cons, not_or] at h
    simp only [List.foldl_cons]
    exact accAgreesAt_trans (ih (processSubdirProto old ib acc s) h.2)
      (processSubdirProto_preserves old ib acc s (fun he => h.1 he.symm))

theorem processLocation_preserves (old : RegistryState) (acc : LoadAcc) (loc : Location)
    {k : String} (h : k ∉ locationProtoNames loc) :
    accAgreesAt (processLocation old acc loc) acc k := by
  cases loc with
  | file src =>
    simp only [locationProtoNames, List.mem_singleton] at h
    exact processFileLoc_preserves acc src (fun he => h he.symm)
  | skipped => exact accAgreesAt_refl _ _
  | dir ib direct subdirs =>
    simp only [locationProtoNames, List.mem_append, not_or] at h
    have hd : accAgreesAt (processDirectOpt ib acc direct) acc k := by
      cases direct with
      | none => exact accAgreesAt_refl _ _
      | some d =>
        have h1 : d.name ≠ k := by
          intro he
          exact h.1 (by simp [directNames, he])
        exact processDirectProto_preserves ib acc d h1
    simp only [processLocation]
    exact accAgreesAt_trans
      (foldl_subdirs_preserves old ib subdirs (processDirectOpt ib acc direct) h.2) hd

theorem foldl_locations_preserves (old : RegistryState) (locs : List Location) (acc : LoadAcc)
    {k : String} (h : k ∉ allProtoNames locs) :
    accAgreesAt (locs.foldl (processLocation old) acc) acc k := by
  induction locs generalizing acc with
  | nil => exact accAgreesAt_refl _ _
  | cons l rest ih =>
    simp only [allProtoNames, List.mem_append, not_or] at h
    simp only [List.foldl_cons]
    exact accAgreesAt_trans (ih (processLocation old acc l) h.2)
      (processLocation_preserves old acc l h.1)

theorem processFileLoc_sets (acc : LoadAcc) (src : ProtoSrc) (spec : SpecH)
    (hok : src.outcome = CompileOutcome.ok spec) :
    dictGet (processFileLoc acc src).newCompilers src.name = some spec ∧
    dictGet (processFileLoc acc src).newMetadata src.name =
      some ⟨src.name, src.files, sortStrs spec.typeNames, false⟩ ∧
    dictGet (processFileLoc acc src).newExamples src.name = dictGet acc.newExamples src.name ∧
    dictGet (processFileLoc acc src).errors src.name = dictGet acc.errors src.name := by
  refine ⟨?_, ?_, ?_, ?_⟩ <;> simp [processFileLoc, hok, dictGet_dictSet_self]

theorem processDirectProto_sets (ib : Bool) (acc : LoadAcc) (src : ProtoSrc) (spec : SpecH)
    (hok : src.outcome = CompileOutcome.ok spec) :
    dictGet (processDirectProto ib acc src).newCompilers src.name = some spec ∧
    dictGet (processDirectProto ib acc src).newMetadata src.name =
      some ⟨src.name, src.files, sortStrs spec.typeNames, ib⟩ ∧
    dictGet (processDirectProto ib acc src).newExamples src.name =
      (if src.examples.isEmpty then dictGet acc.newExamples src.name else some src.examples) ∧
    dictGet (processDirectProto ib acc src).errors src.name = dictGet acc.errors src.name := by
  by_cases hx : src.examples.isEmpty <;>
    refine ⟨?_, ?_, ?_, ?_⟩ <;> simp [processDirectProto, hok, hx, dictGet_dictSet_self]

theorem processSubdirProto_sets (old : RegistryState) (ib : Bool) (acc : LoadAcc)
    (src : ProtoSrc) (spec : SpecH) (hok : src.outcome = CompileOutcome.ok spec) :
    dictGet (processSubdirProto old ib acc src).newCompilers src.name = some spec ∧
    dictGet (processSubdirProto old ib acc src).newMetadata src.name =
      some ⟨src.name, src.files, sortStrs spec.typeNames, ib⟩ ∧
    dictGet (processSubdirProto old ib acc src).newExamples src.name =
      (if src.examples.isEmpty then dictGet acc.newExamples src.name else some src.examples) ∧
    dictGet (processSubdirProto old ib acc src).errors src.name = dictGet acc.errors src.name := by
  by_cases hx : src.examples.isEmpty <;>
    refine ⟨?_, ?_, ?_, ?_⟩ <;> simp [processSubdirProto, hok, hx, dictGet_dictSet_self]

theorem allProtoNames_append (xs ys : List Location) :
    allProtoNames (xs ++ ys) = allProtoNames xs ++ allProtoNames ys := by
  induction xs with
  | nil => simp [allProtoNames]
  | cons l rest ih => simp [allProtoNames, ih]

/-- After processing the location that discovers a successfully compiling,
uniquely named protocol, that protocol's registry entries are exactly those
of its own compilation. -/

theorem processLocation_ok (old : RegistryState) (acc : LoadAcc) (loc : Location)
    (src : ProtoSrc) (spec : SpecH) (ib : Bool)
    (hd : discoversProto loc src ib) (hok : src.outcome = CompileOutcome.ok spec)
    (huniq : countName src.name (locationProtoNames loc) = 1) :
    dictGet (processLocation old acc loc).newCompilers src.name = some spec ∧
    dictGet (processLocation old acc loc).newMetadata src.name =
      some ⟨src.name, src.files, sortStrs spec.typeNames, ib⟩ ∧
    dictGet (processLocation old acc loc).newExamples src.name =
      (if src.examples.isEmpty then dictGet acc.newExamples src.name else some src.examples) ∧
    dictGet (processLocation old acc loc).errors src.name = dictGet acc.errors src.name := by
  rcases hd with ⟨rfl, rfl, hfe⟩ | ⟨subdirs, rfl⟩ | ⟨direct, subdirs, rfl, hmem⟩
  · have h := processFileLoc_sets acc src spec hok
    have hxe : src.examples.isEmpty = true := by simp [hfe]
    simpa [processLocation, hxe] using h
  · -- direct-directory discovery
    have h2 : countName src.name ([src.name] ++ subdirs.map ProtoSrc.name) =
        1 + countName src.name (subdirs.map ProtoSrc.name) := by
      rw [countName_append]
      simp [countName]
    have h0 := huniq
    simp only [locationProtoNames, directNames] at h0
    rw [h2] at h0
    have hsub : countName src.name (subdirs.map ProtoSrc.name) = 0 := by omega
    have hnot := not_mem_of_countName_zero hsub
    have hset := processDirectProto_sets ib acc src spec hok
    have hpres := foldl_subdirs_preserves old ib subdirs
      (processDirectOpt ib acc (some src)) hnot
    simp only [processLocation]
    have hopt : processDirectOpt ib acc (some src) = processDirectProto ib acc src := rfl
    rw [hopt] at hpres
    exact ⟨hpres.1.trans hset.1, hpres.2.1.trans hset.2.1,
      hpres.2.2.1.trans hset.2.2.1, hpres.2.2.2.trans hset.2.2.2⟩
  · -- subdirectory discovery
    obtain ⟨s1, s2, rfl⟩ := List.append_of_mem hmem
    have h1 : countName src.name (src.name :: s2.map ProtoSrc.name) =
        1 + countName src.name (s2.map ProtoSrc.name) := by simp [countName]
    have h0 := huniq
    simp only [locationProtoNames, List.map_append, List.map_cons,
      countName_append] at h0
    have hcd : countName src.name (directNames direct) = 0 := by omega
    have hs1 : countName src.name (s1.map ProtoSrc.name) = 0 := by omega
    have hs2 : countName src.name (s2.map ProtoSrc.name) = 0 := by omega
    have hnot1 := not_mem_of_countName_zero hs1
    have hnot2 := not_mem_of_countName_zero hs2
    have hacc1 : accAgreesAt (processDirectOpt ib acc direct) acc src.name := by
      cases direct with
      | none => exact accAgreesAt_refl _ _
      | some d =>
        have hdn : d.name ≠ src.name := by
          intro he
          simp [directNames, countName, he] at hcd
        exact processDirectProto_preserves ib acc d hdn
    simp only [processLocation, List.foldl_append, List.foldl_cons]
    have hpres1 := foldl_subdirs_preserves old ib s1 (processDirectOpt ib acc direct) hnot1
    have hset := processSubdirProto_sets old ib
      (s1.foldl (processSubdirProto old ib) (processDirectOpt ib acc direct)) src spec hok
    have hpres2 := foldl_subdirs_preserves old ib s2
      (processSubdirProto old ib
        (s1.foldl (processSubdirProto old ib) (processDirectOpt ib acc direct)) src) hnot2
    refine ⟨hpres2.1.trans hset.1, hpres2.2.1.trans hset.2.1, ?_, ?_⟩
    · rw [hpres2.2.2.1, hset.2.2.1, hpres1.2.2.1, hacc1.2.2.1]
    · rw [hpres2.2.2.2, hset.2.2.2, hpres1.2.2.2, hacc1.2.2.2]

/-- On a compile failure in the subdirectory branch, the previous version is
retained and the error recorded. -/

theorem processSubdirProto_err_sets (old : RegistryState) (ib : Bool) (acc : LoadAcc)
    (src : ProtoSrc) (msg : String) (oldSpec : SpecH) (oldMeta : ProtocolMetadata)
    (herr : src.outcome = CompileOutcome.err msg)
    (hc : dictGet old.compilers src.name = some oldSpec)
    (hm : dictGet old.metadata src.name = some oldMeta) :
    dictGet (processSubdirProto old ib acc src).newCompilers src.name = some oldSpec ∧
    dictGet (processSubdirProto old ib acc src).newMetadata src.name = some oldMeta ∧
    dictGet (processSubdirProto old ib acc src).newExamples src.name =
      (match dictGet old.examples src.name with
       | some ex => some ex
       | Option.none => dictGet acc.newExamples src.name) ∧
    dictGet (processSubdirProto old ib acc src).errors src.name = some msg := by
  cases holdx : dictGet old.examples src.name with
  | none =>
    refine ⟨?_, ?_, ?_, ?_⟩ <;>
      simp [processSubdirProto, herr, hc, hm, holdx, dictGet_dictSet_self]
  | some ex =>
    refine ⟨?_, ?_, ?_, ?_⟩ <;>
      simp [processSubdirProto, herr, hc, hm, holdx, dictGet_dictSet_self]

/-!
Decode Tracer — `TraceCollector`, `wrap_decode`, `TraceService.trace`
(src/backend/core/tracer.py).

The Codec Engine's decode dispatch is external: one wrapper invocation is
modelled with the wrapped original method abstracted as (a) the collector
transformation performed by nested instrumented decodes and (b) its
outcome, plus the decoder's bit cursor at entry and exit. Python object
identity of frames (`self._stack[-1] is frame`) is modelled by a fresh
numeric frame id allocated at push. The Python stack's end (append/[-1]/pop)
is the head of the Lean list.
-/

/-- `BitRange` (tracer.py lines 22-32); `end_` is the exclusive bit bound. -/

structure BitRange where
  start : Nat
  end_ : Nat

/-- `TraceNode` (tracer.py lines 35-50). -/

structure TraceNode where
  name : String
  type_label : String
  value : PyVal
  bits : Option BitRange
  children : List TraceNode

/-- A pushed stack frame: `(node, entry-bit-offset)` plus the identity tag
standing in for Python object identity. -/

structure Frame where
  fid : Nat
  node : TraceNode
  start : Nat

/-- `TraceCollector` (tracer.py lines 62-102). -/

structure TraceCollector where
  stack : List Frame
  root : Option TraceNode
  total_bits : Nat
  nextId : Nat

/-- A decoder argument: a real PER decoder exposes `number_of_read_bits`
(its current value is carried); other decoders do not. -/

inductive Decoder where
  | per (bits : Nat)
  | plain

/-- `type_obj.name or type_obj.type_name or "anonymous"` (empty strings are
falsy). -/

def pickName (n tn : String) : String :=
  if n ≠ "" then n else if tn ≠ "" then tn else "anonymous"

/-- `TraceCollector.push`: only real PER decoders are tracked; pushes a stub
node plus the cursor offset at entry and returns the frame (or `None`). -/

def TraceCollector.push (c : TraceCollector) (tyName tyLabel : String)
    (decoder : Decoder) : Option Frame × TraceCollector :=
  match decoder with
  | .plain => (Option.none, c)
  | .per bits =>
    let frame : Frame := ⟨c.nextId, ⟨pickName tyName tyLabel, tyLabel, PyVal.none, Option.none, []⟩, bits⟩
    (some frame, { c with stack := frame :: c.stack, nextId := c.nextId + 1 })

/-- `TraceCollector.pop_success`: if the top of the stack is the pushed
frame, pop it, set its bit range `[entry, now)` and serialized value, and
attach it to the new top frame's node — or record it as the root if the
stack emptied. -/

def TraceCollector.pop_success (c : TraceCollector) (frame : Option Frame)
    (value : PyVal) (bitsNow : Nat) : TraceCollector :=
  match frame with
  | Option.none => c
  | some f =>
    match c.stack with
    | [] => c
    | top :: rest =>
      if top.fid = f.fid then
        let node := { top.node with
          bits := some ⟨top.start, bitsNow⟩
          value := serialize_asn1_data value }
        match rest with
        | parent :: rest2 =>
          { c with stack :=
              { parent with node :=
                  { parent.node with children := parent.node.children ++ [node] } } :: rest2 }
        | [] => { c with stack := [], root := some node }
      else c

/-- `TraceCollector.pop_error`: if the top of the stack is the pushed frame,
pop it — the node is attached nowhere and nothing else changes. -/

def TraceCollector.pop_error (c : TraceCollector) (frame : Option Frame) :
    TraceCollector :=
  match frame with
  | Option.none => c
  | some f =>
    match c.stack with
    | top :: rest => if top.fid = f.fid then { c with stack := rest } else c
    | [] => c

/-- One invocation of the instrumented decode wrapper (tracer.py lines
112-132). `ctx` is the concurrency-scoped active-collector slot; `decoder`
is the decode call's decoder argument (if any); `innerTrans` is what the
wrapped original method (and the nested instrumented decodes it performs)
does to the collector; `innerResult` its outcome; `exitBits` the decoder's
cursor after the call. Returns the decode outcome and the new slot value. -/

def wrap_decode (ctx : Option TraceCollector) (tyName tyLabel : String)
    (decoder : Option Decoder) (innerTrans : TraceCollector → TraceCollector)
    (innerResult : Except PyErr PyVal) (exitBits : Nat) :
    Except PyErr PyVal × Option TraceCollector :=
  match ctx with
  | Option.none => (innerResult, Option.none)
  | some c =>
    let pushres := match decoder with
      | some d => c.push tyName tyLabel d
      | Option.none => (Option.none, c)
    let c2 := innerTrans pushres.2
    match innerResult with
    | .error e => (.error e, some (c2.pop_error pushres.1))
    | .ok v => (.ok v, some (c2.pop_success pushres.1 v exitBits))

/-- `TraceResult` (tracer.py lines 53-59). -/

structure TraceResult where
  protocol : String
  type_name : String
  decoded : PyVal
  root : TraceNode
  total_bits : Nat

/-- `_hex_to_bytes` cleanup: strip `0x`, spaces and newlines, then `strip()`
whitespace from both ends. -/

def cleanTracerHex (hex_data : String) : List Char :=
  let replaced := ((remove0x hex_data.data).filter (fun c => c ≠ ' ')).filter (fun c => c ≠ '\n')
  (replaced.dropWhile Char.isWhitespace).reverse.dropWhile Char.isWhitespace |>.reverse

/-- `_hex_to_bytes` (tracer.py lines 196-202): empty or odd-length cleaned
hex is a user-facing `ValueError`; `bytes.fromhex` may still raise on
non-hex characters. -/

def hex_to_bytes (hex_data : String) : Except PyErr (List Nat) :=
  let clean := cleanTracerHex hex_data
  if clean.length = 0 ∨ clean.length % 2 ≠ 0 then
    Except.error (PyErr.valueError "hex_data must contain an even number of hex characters.")
  else fromhexChars clean

/-- `TraceService.trace` (tracer.py lines 155-193). The decode call is the
external Codec Engine: `decodeTrans` is the collector transformation its
instrumented sub-decodes perform, `decodeOutcome` its result on the payload
bytes. `ctx0` is the active-collector slot before the call; the returned
slot models the slot after the `finally` reset. The collector is created
with `total_bits = 8 × len(payload)`, which nothing ever writes, so the
synthesized root's range uses that value directly. -/

def TraceService_trace (mgr : String → Option SpecH)
    (protocol type_name : String) (hex_data : String)
    (decodeTrans : TraceCollector → TraceCollector)
    (decodeOutcome : List Nat → Except PyErr PyVal)
    (ctx0 : Option TraceCollector) :
    Except PyErr TraceResult × Option TraceCollector :=
  if type_name = "" then
    (.error (.valueError "type_name is required for trace operations."), ctx0)
  else
    match mgr protocol with
    | Option.none =>
      (.error (.valueError ("Protocol '" ++ protocol ++ "' not found.")), ctx0)
    | some compiler =>
      if ¬ compiler.typeNames.contains type_name then
        (.error (.valueError ("Type '" ++ type_name ++ "' not found in protocol '"
          ++ protocol ++ "'.")), ctx0)
      else
        match hex_to_bytes hex_data with
        | .error e => (.error e, ctx0)
        | .ok payload =>
          let collector : TraceCollector := ⟨[], Option.none, payload.length * 8, 0⟩
          let cAfter := decodeTrans collector
          match decodeOutcome payload with
          | .error e => (.error e, ctx0)
          | .ok decoded =>
            let root0 := match cAfter.root with
              | some r => r
              | Option.none =>
                ⟨type_name, type_name, serialize_asn1_data decoded,
                 some ⟨0, payload.length * 8⟩, []⟩
            let root1 := if root0.name = "" then { root0 with name := type_name } else root0
            let root2 := if root1.type_label = "" then { root1 with type_label := type_name }
              else root1
            let consumed := match root2.bits with
              | some b => b.end_
              | Option.none => payload.length * 8
            (.ok ⟨protocol, type_name, decoded, root2, consumed⟩, ctx0)

/-!
Type Introspector — `build_type_tree` / `_describe_type`
(src/backend/core/type_tree.py, lines 6-63).

Compiled type objects form an arbitrary (possibly cyclic) object graph;
it is modelled as a finite graph over node identities `Fin n` (`id(type_obj)`
in the source). Per-node attributes (`name`, `type_name`/class-name
fallback, class name, `optional`, `default`, the `_extract_constraints`
result) are abstract input data. The source adds `id(type_obj)` to the
mutable visited set before walking children and removes it after, and
every recursive call restores the set before returning, so each child is
walked with exactly `visited ∪ {i}` — the functional model passes
`insert i visited` down instead. -/

structure TypeGraph (n : Nat) where
  nameOf : Fin n → Option String
  typeOf : Fin n → String
  kindOf : Fin n → String
  optionalOf : Fin n → Bool
  defaultOf : Fin n → Option PyVal
  constraintsOf : Fin n → Option PyVal
  rootMembers : Fin n → List (Fin n)
  indexMembers : Fin n → List (Nat × Fin n)
  elementType : Fin n → Option (Fin n)

/-- A node of the JSON-serialisable type tree. `optionalFlag`/`defaultVal`/
`constraints` model keys added only when truthy/present; `children = []`
models the absent `children` key. -/

structure TypeTreeNode where
  name : Option String
  type : String
  kind : String
  optionalFlag : Bool
  defaultVal : Option PyVal
  constraints : Option PyVal
  note : Option String
  children : List TypeTreeNode

/-- Insertion step for sorting `root_index_to_member.items()` by index. -/

def insertByKey {n : Nat} (x : Nat × Fin n) : List (Nat × Fin n) → List (Nat × Fin n)
  | [] => [x]
  | y :: ys => if x.1 ≤ y.1 then x :: y :: ys else y :: insertByKey x ys

/-- `sorted(root_index_to_member.items(), key=lambda item: item[0])`. -/

def sortByKey {n : Nat} : List (Nat × Fin n) → List (Nat × Fin n)
  | [] => []
  | x :: xs => insertByKey x (sortByKey xs)

/-- `if not child.get("name"): child["name"] = "element"` (None and the
empty string are falsy). -/

def fixElementName (child : TypeTreeNode) : TypeTreeNode :=
  match child.name with
  | some nm => if nm = "" then { child with name := some "element" } else child
  | Option.none => { child with name := some "element" }

/-- `_describe_type`: describe a node; a node already on the current
recursion path is emitted as a `recursive reference` leaf, otherwise its
root members, index members (sorted by index) and element type are walked
with the path extended by this node. -/

def describe_type {n : Nat} (g : TypeGraph n) (visited : Finset (Fin n)) (i : Fin n) :
    TypeTreeNode :=
  if hv : i ∈ visited then
    ⟨g.nameOf i, g.typeOf i, g.kindOf i, g.optionalOf i, g.defaultOf i, g.constraintsOf i,
     some "recursive reference", []⟩
  else
    let kids1 := (g.rootMembers i).map (fun j => describe_type g (insert i visited) j)
    let kids2 := (sortByKey (g.indexMembers i)).map
      (fun p => describe_type g (insert i visited) p.2)
    let kids3 := match g.elementType i with
      | some e => [fixElementName (describe_type g (insert i visited) e)]
      | Option.none => []
    ⟨g.nameOf i, g.typeOf i, g.kindOf i, g.optionalOf i, g.defaultOf i, g.constraintsOf i,
     Option.none, kids1 ++ kids2 ++ kids3⟩
termination_by n - visited.card
decreasing_by
  all_goals
    have hcard : (insert i visited).card = visited.card + 1 :=
      Finset.card_insert_of_not_mem hv
    have hle : (insert i visited).card ≤ n := by
      have h := Finset.card_le_card (Finset.subset_univ (insert i visited))
      simpa using h
    omega

/-- `build_type_tree` (type_tree.py lines 6-12): start with an empty path. -/

def build_type_tree {n : Nat} (g : TypeGraph n) (i : Fin n) : TypeTreeNode :=
  describe_type g ∅ i

/-- A graph in which node 0 reaches node 1 through two sibling branches. -/

def twoSiblingGraph : TypeGraph 2 where
  nameOf := fun _ => Option.none
  typeOf := fun _ => "T"
  kindOf := fun i => if i = 0 then "Sequence" else "Integer"
  optionalOf := fun _ => false
  defaultOf := fun _ => Option.none
  constraintsOf := fun _ => Option.none
  rootMembers := fun i => if i = 0 then [1, 1] else []
  indexMembers := fun _ => []
  elementType := fun _ => Option.none

/-- A graph whose single node contains itself. -/

def selfLoopGraph : TypeGraph 1 where
  nameOf := fun _ => Option.none
  typeOf := fun _ => "T"
  kindOf := fun _ => "Sequence"
  optionalOf := fun _ => false
  defaultOf := fun _ => Option.none
  constraintsOf := fun _ => Option.none
  rootMembers := fun _ => [0]
  indexMembers := fun _ => []
  elementType := fun _ => Option.none

/-!
Claim theorems, in claim order.
-/

/-- Claim C1, counterexample: the converter does raise on some wire inputs —
for the wire string "0xzz" at any non-special type, the generic normalizer
calls `bytes.fromhex("zz")`, whose `ValueError` propagates, so `toCodecValue`
does not return a value. -/
theorem C1_counterexample :
    convert_to_python_asn1 (PyVal.str "0xzz") Asn1Type.Other =
      Except.error (PyErr.valueError "non-hexadecimal number found in fromhex() arg") := by
  simp [convert_to_python_asn1, deserialize_asn1_data, startsWith0x, fromhexChars, remove0x,
    hexPairsToBytes, hexDigitVal, Except.map]

/-- Claim C1 (amended): conversion returns some codec value for every input
wire value that is hex-wellformed (`csafe`): whenever every `0x`-prefixed
string, `$hex` entry and BIT STRING `[hex, bitLength]` pair that conversion
can reach parses, `convert_to_python_asn1` (including its generic fallback
`deserialize_asn1_data`) returns `Except.ok`; outside `csafe` the
`bytes.fromhex`/`int()` exceptions propagate, as in the counterexample. -/
theorem C1_theorem (data : PyVal) (ty : Asn1Type) (h : csafe data ty = true) :
    ∃ r, convert_to_python_asn1 data ty = Except.ok r :=
  convert_ok_of_csafe data ty h

/-- Claim C1, witness: the BIT STRING wire pair `["A0", 4]` is hex-wellformed
and converts successfully. -/
theorem C1_witness :
    csafe (PyVal.list [PyVal.str "A0", PyVal.int 4]) Asn1Type.BitString = true ∧
    ∃ r, convert_to_python_asn1 (PyVal.list [PyVal.str "A0", PyVal.int 4]) Asn1Type.BitString =
      Except.ok r := by
  have hcs : csafe (PyVal.list [PyVal.str "A0", PyVal.int 4]) Asn1Type.BitString = true := by
    simp [csafe, bitSafe, pyInt, cleanHexChars, remove0x, padEven, fromhexChars,
      hexPairsToBytes, hexDigitVal]
  exact ⟨hcs, C1_theorem (PyVal.list [PyVal.str "A0", PyVal.int 4]) Asn1Type.BitString hcs⟩

/-- Claim C2, counterexample: for the input `{"$choice":"a","value":1,"b":2}`
at a CHOICE type that declares `"b"` as an alternative, `toCodecValue`
resolves the discriminator to `"b"` (the member-name scan of
`convert_to_python_asn1` runs before the `$choice` rules), not to `"a"` as
the claim states. -/
theorem C2_counterexample :
    convert_to_python_asn1
        (PyVal.dict [("$choice", PyVal.str "a"), ("value", PyVal.int 1), ("b", PyVal.int 2)])
        (Asn1Type.Choice [("b", Asn1Type.Other)]) =
      Except.ok (PyVal.tuple [PyVal.str "b", PyVal.int 2]) ∧
    PyVal.tuple [PyVal.str "b", PyVal.int 2] ≠ PyVal.tuple [PyVal.str "a", PyVal.int 1] := by
  constructor
  · simp [convert_to_python_asn1, findChoiceMember, dlookup, deserialize_asn1_data, Except.map]
  · simp

/-- Claim C2 (amended): the strict (a) > (b) > (c) priority lives in the
generic fallback `_extract_choice`, and applies only when no declared
alternative's name is a key of the input map: `convert_to_python_asn1` first
scans the CHOICE's declared members and takes the first whose name is a key;
only when none matches does `_extract_choice` run, and there an explicit
`$choice`/`value` pair always wins (rule (a)), so
`{"$choice":"a","value":1,"b":2}` resolves to `"a"` exactly when `"b"` is not
a declared alternative, and to `"b"` when it is. -/
theorem C2_theorem :
    (∀ es c v, dlookup es "$choice" = some c → dlookup es "value" = some v →
      extract_choice es = some (c, v)) ∧
    (∀ ms, findChoiceMember ms
        [("$choice", PyVal.str "a"), ("value", PyVal.int 1), ("b", PyVal.int 2)] = Option.none →
      convert_to_python_asn1
        (PyVal.dict [("$choice", PyVal.str "a"), ("value", PyVal.int 1), ("b", PyVal.int 2)])
        (Asn1Type.Choice ms) = Except.ok (PyVal.tuple [PyVal.str "a", PyVal.int 1])) ∧
    convert_to_python_asn1
        (PyVal.dict [("$choice", PyVal.str "a"), ("value", PyVal.int 1), ("b", PyVal.int 2)])
        (Asn1Type.Choice [("b", Asn1Type.Other)]) =
      Except.ok (PyVal.tuple [PyVal.str "b", PyVal.int 2]) := by
  refine ⟨?_, ?_, ?_⟩
  · intro es c v h1 h2
    simp [extract_choice, h1, h2]
  · intro ms hfm
    simp only [convert_to_python_asn1]
    split
    · next heq => rw [hfm] at heq; cases heq
    · simp [deserialize_asn1_data, dlookup, extract_choice, Except.map]
  · simp [convert_to_python_asn1, findChoiceMember, dlookup, deserialize_asn1_data, Except.map]

/-- Claim C2, witness: with only `"c"` declared, the member scan fails and
rule (a) resolves the discriminator to `"a"`. -/
theorem C2_witness :
    extract_choice [("$choice", PyVal.str "x"), ("value", PyVal.int 7)] =
      some (PyVal.str "x", PyVal.int 7) ∧
    findChoiceMember [("c", Asn1Type.Other)]
      [("$choice", PyVal.str "a"), ("value", PyVal.int 1), ("b", PyVal.int 2)] = Option.none ∧
    convert_to_python_asn1
        (PyVal.dict [("$choice", PyVal.str "a"), ("value", PyVal.int 1), ("b", PyVal.int 2)])
        (Asn1Type.Choice [("c", Asn1Type.Other)]) =
      Except.ok (PyVal.tuple [PyVal.str "a", PyVal.int 1]) := by
  have hfm : findChoiceMember [("c", Asn1Type.Other)]
      [("$choice", PyVal.str "a"), ("value", PyVal.int 1), ("b", PyVal.int 2)] = Option.none := by
    simp [findChoiceMember, dlookup]
  refine ⟨?_, hfm, C2_theorem.2.1 [("c", Asn1Type.Other)] hfm⟩
  exact C2_theorem.1 _ _ _ (by simp [dlookup]) (by simp [dlookup])

/-- Claim C3, counterexample: a previously compiled protocol discovered as a
direct protocol directory (the directory itself holds the schema files) is
dropped, not retained, when its recompilation fails — the error is recorded
but the old compiled version disappears from the new state. -/
theorem C3_counterexample :
    dictGet (load_protocols_locked
      ⟨[("p", ⟨1, ["T"]⟩)], [("p", ⟨"p", ["a.asn"], ["T"], false⟩)], []⟩
      [Location.dir false (some ⟨"p", ["a.asn"], CompileOutcome.err "syntax error", []⟩) []]).1.compilers
      "p" = Option.none ∧
    dictGet (load_protocols_locked
      ⟨[("p", ⟨1, ["T"]⟩)], [("p", ⟨"p", ["a.asn"], ["T"], false⟩)], []⟩
      [Location.dir false (some ⟨"p", ["a.asn"], CompileOutcome.err "syntax error", []⟩) []]).2
      "p" = some "syntax error" := by
  constructor
  · rfl
  · rfl

/-- Claim C3 (amended): stale-retention on compile failure holds for
protocols discovered as first-level subdirectories — for a uniquely named
subdirectory protocol that fails to recompile while a previous compiled
version exists, the new state keeps the old compiler handle, metadata and
example bank, and the error is recorded under the protocol's name.
(It does not hold for the explicit-file and direct-directory discovery
modes: see the counterexample, where such a protocol is dropped.) -/
theorem C3_theorem (old : RegistryState) (pre post : List Location) (ib : Bool)
    (direct : Option ProtoSrc) (s1 s2 : List ProtoSrc) (src : ProtoSrc) (msg : String)
    (oldSpec : SpecH) (oldMeta : ProtocolMetadata)
    (herr : src.outcome = CompileOutcome.err msg)
    (hc : dictGet old.compilers src.name = some oldSpec)
    (hm : dictGet old.metadata src.name = some oldMeta)
    (huniq : countName src.name
      (allProtoNames (pre ++ Location.dir ib direct (s1 ++ src :: s2) :: post)) = 1) :
    dictGet (load_protocols_locked old
      (pre ++ Location.dir ib direct (s1 ++ src :: s2) :: post)).1.compilers src.name =
        some oldSpec ∧
    dictGet (load_protocols_locked old
      (pre ++ Location.dir ib direct (s1 ++ src :: s2) :: post)).1.metadata src.name =
        some oldMeta ∧
    dictGet (load_protocols_locked old
      (pre ++ Location.dir ib direct (s1 ++ src :: s2) :: post)).1.examples src.name =
        dictGet old.examples src.name ∧
    dictGet (load_protocols_locked old
      (pre ++ Location.dir ib direct (s1 ++ src :: s2) :: post)).2 src.name = some msg := by
  rw [allProtoNames_append] at huniq
  simp only [allProtoNames, countName_append] at huniq
  have h1 : countName src.name (src.name :: s2.map ProtoSrc.name) =
      1 + countName src.name (s2.map ProtoSrc.name) := by simp [countName]
  simp only [locationProtoNames, List.map_append, List.map_cons, countName_append] at huniq
  have hpre : countName src.name (allProtoNames pre) = 0 := by omega
  have hpost : countName src.name (allProtoNames post) = 0 := by omega
  have hcd : countName src.name (directNames direct) = 0 := by omega
  have hs1 : countName src.name (s1.map ProtoSrc.name) = 0 := by omega
  have hs2 : countName src.name (s2.map ProtoSrc.name) = 0 := by omega
  have hnpre := not_mem_of_countName_zero hpre
  have hnpost := not_mem_of_countName_zero hpost
  have hnot1 := not_mem_of_countName_zero hs1
  have hnot2 := not_mem_of_countName_zero hs2
  simp only [load_protocols_locked, List.foldl_append, List.foldl_cons]
  set acc0 := pre.foldl (processLocation old) ⟨[], [], [], []⟩ with hacc0
  have hpres0 : accAgreesAt acc0 ⟨[], [], [], []⟩ src.name :=
    foldl_locations_preserves old pre _ hnpre
  have hacc1 : accAgreesAt (processDirectOpt ib acc0 direct) acc0 src.name := by
    cases direct with
    | none => exact accAgreesAt_refl _ _
    | some d =>
      have hdn : d.name ≠ src.name := by
        intro he
        simp [directNames, countName, he] at hcd
      exact processDirectProto_preserves ib acc0 d hdn
  simp only [processLocation, List.foldl_append, List.foldl_cons]
  have hpres1 := foldl_subdirs_preserves old ib s1 (processDirectOpt ib acc0 direct) hnot1
  have hset := processSubdirProto_err_sets old ib
    (s1.foldl (processSubdirProto old ib) (processDirectOpt ib acc0 direct))
    src msg oldSpec oldMeta herr hc hm
  have hpres2 := foldl_subdirs_preserves old ib s2
    (processSubdirProto old ib
      (s1.foldl (processSubdirProto old ib) (processDirectOpt ib acc0 direct)) src) hnot2
  have hpostpres : accAgreesAt
      (post.foldl (processLocation old)
        (s2.foldl (processSubdirProto old ib)
          (processSubdirProto old ib
            (s1.foldl (processSubdirProto old ib) (processDirectOpt ib acc0 direct)) src)))
      (s2.foldl (processSubdirProto old ib)
        (processSubdirProto old ib
          (s1.foldl (processSubdirProto old ib) (processDirectOpt ib acc0 direct)) src))
      src.name :=
    foldl_locations_preserves old post _ hnpost
  refine ⟨?_, ?_, ?_, ?_⟩
  · rw [hpostpres.1, hpres2.1, hset.1]
  · rw [hpostpres.2.1, hpres2.2.1, hset.2.1]
  · rw [hpostpres.2.2.1, hpres2.2.2.1, hset.2.2.1]
    cases holdx : dictGet old.examples src.name with
    | none =>
      simp only
      rw [hpres1.2.2.1, hacc1.2.2.1, hpres0.2.2.1]
      rfl
    | some ex => simp only
  · rw [hpostpres.2.2.2, hpres2.2.2.2, hset.2.2.2]

/-- Claim C3, witness: a uniquely named subdirectory protocol whose
recompilation fails keeps its previous compiler, metadata and examples, with
the error recorded. -/
theorem C3_witness :
    dictGet (load_protocols_locked
      ⟨[("p", ⟨1, ["T"]⟩)], [("p", ⟨"p", ["a.asn"], ["T"], false⟩)], [("p", [("ex", PyVal.int 1)])]⟩
      [Location.dir false Option.none [⟨"p", ["a.asn"], CompileOutcome.err "boom", []⟩]]).1.compilers
      "p" = some ⟨1, ["T"]⟩ ∧
    dictGet (load_protocols_locked
      ⟨[("p", ⟨1, ["T"]⟩)], [("p", ⟨"p", ["a.asn"], ["T"], false⟩)], [("p", [("ex", PyVal.int 1)])]⟩
      [Location.dir false Option.none [⟨"p", ["a.asn"], CompileOutcome.err "boom", []⟩]]).1.metadata
      "p" = some ⟨"p", ["a.asn"], ["T"], false⟩ ∧
    dictGet (load_protocols_locked
      ⟨[("p", ⟨1, ["T"]⟩)], [("p", ⟨"p", ["a.asn"], ["T"], false⟩)], [("p", [("ex", PyVal.int 1)])]⟩
      [Location.dir false Option.none [⟨"p", ["a.asn"], CompileOutcome.err "boom", []⟩]]).1.examples
      "p" = some [("ex", PyVal.int 1)] ∧
    dictGet (load_protocols_locked
      ⟨[("p", ⟨1, ["T"]⟩)], [("p", ⟨"p", ["a.asn"], ["T"], false⟩)], [("p", [("ex", PyVal.int 1)])]⟩
      [Location.dir false Option.none [⟨"p", ["a.asn"], CompileOutcome.err "boom", []⟩]]).2
      "p" = some "boom" := by
  have h := C3_theorem
    ⟨[("p", ⟨1, ["T"]⟩)], [("p", ⟨"p", ["a.asn"], ["T"], false⟩)], [("p", [("ex", PyVal.int 1)])]⟩
    [] [] false Option.none [] [] ⟨"p", ["a.asn"], CompileOutcome.err "boom", []⟩ "boom"
    ⟨1, ["T"]⟩ ⟨"p", ["a.asn"], ["T"], false⟩ rfl rfl rfl (by rfl)
  simpa using h

/-- Claim C4: registry isolation. In any `loadAll` over any sequence of
configured locations, a protocol `src` that is discovered exactly once
(explicit file, direct directory, or first-level subdirectory) and compiles
successfully ends up with exactly its own compilation's compiler handle,
metadata (sorted type names, its own file list and bundled flag) and example
bank, and no error entry — no matter what happens to every other protocol
in the same load (in particular compile failures elsewhere, which are caught
and recorded in the returned name → message map; `load_protocols_locked`
itself is total and never propagates a compile failure). -/
theorem C4_theorem (old : RegistryState) (pre post : List Location) (loc : Location)
    (src : ProtoSrc) (spec : SpecH) (ib : Bool)
    (hd : discoversProto loc src ib) (hok : src.outcome = CompileOutcome.ok spec)
    (huniq : countName src.name (allProtoNames (pre ++ loc :: post)) = 1) :
    dictGet (load_protocols_locked old (pre ++ loc :: post)).1.compilers src.name = some spec ∧
    dictGet (load_protocols_locked old (pre ++ loc :: post)).1.metadata src.name =
      some ⟨src.name, src.files, sortStrs spec.typeNames, ib⟩ ∧
    dictGet (load_protocols_locked old (pre ++ loc :: post)).1.examples src.name =
      (if src.examples.isEmpty then Option.none else some src.examples) ∧
    dictGet (load_protocols_locked old (pre ++ loc :: post)).2 src.name = Option.none := by
  have hmemloc : src.name ∈ locationProtoNames loc := by
    rcases hd with ⟨rfl, -, -⟩ | ⟨subdirs, rfl⟩ | ⟨direct, subdirs, rfl, hmem⟩
    · simp [locationProtoNames]
    · simp [locationProtoNames, directNames]
    · simp only [locationProtoNames, List.mem_append]
      exact Or.inr (List.mem_map_of_mem ProtoSrc.name hmem)
  have hposloc : 1 ≤ countName src.name (locationProtoNames loc) := by
    obtain ⟨u1, u2, he⟩ := List.append_of_mem hmemloc
    have h1 : countName src.name (src.name :: u2) = 1 + countName src.name u2 := by
      simp [countName]
    rw [he, countName_append]
    omega
  rw [allProtoNames_append] at huniq
  simp only [allProtoNames, countName_append] at huniq
  have hpre : countName src.name (allProtoNames pre) = 0 := by omega
  have hloc : countName src.name (locationProtoNames loc) = 1 := by omega
  have hpost : countName src.name (allProtoNames post) = 0 := by omega
  have hnpre := not_mem_of_countName_zero hpre
  have hnpost := not_mem_of_countName_zero hpost
  simp only [load_protocols_locked, List.foldl_append, List.foldl_cons]
  set acc0 := pre.foldl (processLocation old) ⟨[], [], [], []⟩ with hacc0
  have hpres0 : accAgreesAt acc0 ⟨[], [], [], []⟩ src.name :=
    foldl_locations_preserves old pre _ hnpre
  have hok1 := processLocation_ok old acc0 loc src spec ib hd hok hloc
  have hpres1 : accAgreesAt (post.foldl (processLocation old) (processLocation old acc0 loc))
      (processLocation old acc0 loc) src.name :=
    foldl_locations_preserves old post _ hnpost
  refine ⟨hpres1.1.trans hok1.1, hpres1.2.1.trans hok1.2.1, ?_, ?_⟩
  · rw [hpres1.2.2.1, hok1.2.2.1]
    have hnone : dictGet acc0.newExamples src.name = Option.none := hpres0.2.2.1
    rw [hnone]
  · rw [hpres1.2.2.2, hok1.2.2.2]
    exact hpres0.2.2.2

/-- Claim C4, witness: with protocol "a" failing and protocol "b" compiling
in the same scanned directory, "b" gets exactly its own compilation
results. -/
theorem C4_witness :
    dictGet (load_protocols_locked ⟨[], [], []⟩
      [Location.dir false Option.none
        [⟨"a", ["a.asn"], CompileOutcome.err "bad", []⟩,
         ⟨"b", ["b.asn"], CompileOutcome.ok ⟨7, ["U", "T"]⟩, [("ex", PyVal.int 2)]⟩]]).1.compilers
      "b" = some ⟨7, ["U", "T"]⟩ ∧
    dictGet (load_protocols_locked ⟨[], [], []⟩
      [Location.dir false Option.none
        [⟨"a", ["a.asn"], CompileOutcome.err "bad", []⟩,
         ⟨"b", ["b.asn"], CompileOutcome.ok ⟨7, ["U", "T"]⟩, [("ex", PyVal.int 2)]⟩]]).1.metadata
      "b" = some ⟨"b", ["b.asn"], ["T", "U"], false⟩ ∧
    dictGet (load_protocols_locked ⟨[], [], []⟩
      [Location.dir false Option.none
        [⟨"a", ["a.asn"], CompileOutcome.err "bad", []⟩,
         ⟨"b", ["b.asn"], CompileOutcome.ok ⟨7, ["U", "T"]⟩, [("ex", PyVal.int 2)]⟩]]).1.examples
      "b" = some [("ex", PyVal.int 2)] ∧
    dictGet (load_protocols_locked ⟨[], [], []⟩
      [Location.dir false Option.none
        [⟨"a", ["a.asn"], CompileOutcome.err "bad", []⟩,
         ⟨"b", ["b.asn"], CompileOutcome.ok ⟨7, ["U", "T"]⟩, [("ex", PyVal.int 2)]⟩]]).2
      "b" = Option.none := by
  have h := C4_theorem ⟨[], [], []⟩ [] []
    (Location.dir false Option.none
      [⟨"a", ["a.asn"], CompileOutcome.err "bad", []⟩,
       ⟨"b", ["b.asn"], CompileOutcome.ok ⟨7, ["U", "T"]⟩, [("ex", PyVal.int 2)]⟩])
    ⟨"b", ["b.asn"], CompileOutcome.ok ⟨7, ["U", "T"]⟩, [("ex", PyVal.int 2)]⟩
    ⟨7, ["U", "T"]⟩ false
    (Or.inr (Or.inr ⟨Option.none,
      [⟨"a", ["a.asn"], CompileOutcome.err "bad", []⟩,
       ⟨"b", ["b.asn"], CompileOutcome.ok ⟨7, ["U", "T"]⟩, [("ex", PyVal.int 2)]⟩],
      rfl, by simp⟩))
    rfl (by rfl)
  simpa [sortStrs, insertSorted] using h

/-- Claim C5, counterexample: with a registered protocol and a declared type,
the payload "zz" cleans to the non-empty, even-length string "zz" — none of
the claim's invalid-input conditions hold — yet `trace` raises `ValueError`,
because `bytes.fromhex` rejects the non-hex characters. -/
theorem C5_counterexample :
    (TraceService_trace (fun _ => some ⟨0, ["T"]⟩) "p" "T" "zz" id
        (fun _ => Except.ok PyVal.none) Option.none).1 =
      Except.error (PyErr.valueError "non-hexadecimal number found in fromhex() arg") ∧
    cleanTracerHex "zz" = ['z', 'z'] ∧
    (cleanTracerHex "zz").length = 2 ∧
    (fun (_ : String) => some (⟨0, ["T"]⟩ : SpecH)) "p" = some ⟨0, ["T"]⟩ ∧
    (⟨0, ["T"]⟩ : SpecH).typeNames.contains "T" = true := by
  have hclean : cleanTracerHex "zz" = ['z', 'z'] := by decide
  refine ⟨?_, hclean, by decide, rfl, by decide⟩
  have hhx : hex_to_bytes "zz" =
      Except.error (PyErr.valueError "non-hexadecimal number found in fromhex() arg") := by
    simp [hex_to_bytes, hclean, fromhexChars, hexPairsToBytes, hexDigitVal]
  simp [TraceService_trace, hhx]

/-- Claim C5 (amended): provided the Codec Engine's decode itself never
raises `ValueError`, `TraceService.trace` raises a `ValueError` exactly when
the type name is empty, the protocol is not registered, the type is not
declared in the compiled specification, or the cleaned hex payload is empty,
has odd length, or contains a non-hex character (the last condition is the
one the original claim omits). -/
theorem C5_theorem (mgr : String → Option SpecH) (protocol type_name hex_data : String)
    (decodeTrans : TraceCollector → TraceCollector)
    (decodeOutcome : List Nat → Except PyErr PyVal) (ctx0 : Option TraceCollector)
    (hdec : ∀ bs msg, decodeOutcome bs ≠ Except.error (PyErr.valueError msg)) :
    (∃ msg, (TraceService_trace mgr protocol type_name hex_data decodeTrans
        decodeOutcome ctx0).1 = Except.error (PyErr.valueError msg)) ↔
      (type_name = "" ∨
       mgr protocol = Option.none ∨
       (∃ c, mgr protocol = some c ∧ c.typeNames.contains type_name = false) ∨
       (cleanTracerHex hex_data).length = 0 ∨
       (cleanTracerHex hex_data).length % 2 ≠ 0 ∨
       hexPairsToBytes (cleanTracerHex hex_data) = Option.none) := by
  by_cases h1 : type_name = ""
  · simp [TraceService_trace, h1]
  · cases hmgr : mgr protocol with
    | none => simp [TraceService_trace, h1, hmgr]
    | some c =>
      by_cases hc : c.typeNames.contains type_name
      · by_cases hlen : (cleanTracerHex hex_data).length = 0 ∨
            (cleanTracerHex hex_data).length % 2 ≠ 0
        · have hhx : hex_to_bytes hex_data = Except.error
              (PyErr.valueError "hex_data must contain an even number of hex characters.") := by
            simp only [hex_to_bytes]
            rw [if_pos hlen]
          have hcm : type_name ∈ c.typeNames := by simpa using hc
          constructor
          · intro _
            tauto
          · intro _
            exact ⟨"hex_data must contain an even number of hex characters.",
              by simp [TraceService_trace, h1, hmgr, hc, hcm, hhx]⟩
        · cases hpb : hexPairsToBytes (cleanTracerHex hex_data) with
          | none =>
            have hhx : hex_to_bytes hex_data = Except.error
                (PyErr.valueError "non-hexadecimal number found in fromhex() arg") := by
              simp only [hex_to_bytes]
              rw [if_neg hlen]
              simp [fromhexChars, hpb]
            have hcm : type_name ∈ c.typeNames := by simpa using hc
            constructor
            · intro _
              tauto
            · intro _
              exact ⟨"non-hexadecimal number found in fromhex() arg",
                by simp [TraceService_trace, h1, hmgr, hc, hcm, hhx]⟩
          | some bs =>
            have hhx : hex_to_bytes hex_data = Except.ok bs := by
              simp only [hex_to_bytes]
              rw [if_neg hlen]
              simp [fromhexChars, hpb]
            have hncc : ¬ (¬ c.typeNames.contains type_name = true) := by simpa using hc
            constructor
            · rintro ⟨msg, hmsg⟩
              exfalso
              simp only [TraceService_trace, if_neg h1, hmgr, hhx, if_neg hncc] at hmsg
              cases hdo : decodeOutcome bs with
              | error e =>
                rw [hdo] at hmsg
                simp at hmsg
                exact hdec bs msg (by rw [hdo, hmsg])
              | ok decoded =>
                rw [hdo] at hmsg
                simp at hmsg
            · intro hcond
              exfalso
              rcases hcond with h | h | ⟨c', hc1, hc2⟩ | h | h | h
              · exact h1 h
              · cases h
              · cases hc1
                rw [hc2] at hc
                cases hc
              · exact hlen (Or.inl h)
              · exact hlen (Or.inr h)
              · cases h
      · constructor
        · intro _
          exact Or.inr (Or.inr (Or.inl ⟨c, rfl, by simpa using hc⟩))
        · intro _
          have hcm : type_name ∉ c.typeNames := by simpa using hc
          exact ⟨"Type '" ++ type_name ++ "' not found in protocol '" ++ protocol ++ "'.",
            by simp [TraceService_trace, h1, hmgr, hc, hcm]⟩

/-- Claim C5, witness: an unregistered protocol raises `ValueError`, and the
condition list is satisfied. -/
theorem C5_witness :
    (∃ msg, (TraceService_trace (fun _ => Option.none) "p" "T" "aa" id
        (fun _ => Except.ok PyVal.none) Option.none).1 =
      Except.error (PyErr.valueError msg)) ∧
    (∀ bs msg, (fun (_ : List Nat) => Except.ok PyVal.none) bs ≠
      Except.error (PyErr.valueError msg)) := by
  have hdec : ∀ bs msg, (fun (_ : List Nat) => Except.ok PyVal.none) bs ≠
      Except.error (PyErr.valueError msg) := by
    intro bs msg h
    cases h
  refine ⟨?_, hdec⟩
  exact (C5_theorem (fun _ => Option.none) "p" "T" "aa" id
    (fun _ => Except.ok PyVal.none) Option.none hdec).mpr (Or.inr (Or.inl rfl))

/-- Claim C6: a successful trace always carries a root node: when the
collector produced no root, the result's root is a single synthesized node
named for the requested type whose bit range spans the whole input
`[0, 8·len(payload))`; and the returned `total_bits` equals the root's
bit-range end when the root has a bit range, or the full input bit length
otherwise. -/
theorem C6_theorem (mgr : String → Option SpecH) (protocol type_name hex_data : String)
    (decodeTrans : TraceCollector → TraceCollector)
    (decodeOutcome : List Nat → Except PyErr PyVal) (ctx0 : Option TraceCollector)
    (res : TraceResult) (ctxf : Option TraceCollector) (payload : List Nat)
    (hpb : hex_to_bytes hex_data = Except.ok payload)
    (htr : TraceService_trace mgr protocol type_name hex_data decodeTrans decodeOutcome ctx0 =
      (Except.ok res, ctxf)) :
    ((decodeTrans ⟨[], Option.none, payload.length * 8, 0⟩).root = Option.none →
      res.root = ⟨type_name, type_name, serialize_asn1_data res.decoded,
        some ⟨0, payload.length * 8⟩, []⟩) ∧
    res.total_bits = (match res.root.bits with
      | some b => b.end_
      | Option.none => payload.length * 8) := by
  by_cases h1 : type_name = ""
  · simp [TraceService_trace, h1] at htr
  · cases hmgr : mgr protocol with
    | none => simp [TraceService_trace, h1, hmgr] at htr
    | some c =>
      by_cases hc : c.typeNames.contains type_name
      · have hncc : ¬ (¬ c.typeNames.contains type_name = true) := by simpa using hc
        simp only [TraceService_trace, if_neg h1, hmgr, if_neg hncc, hpb] at htr
        cases hdo : decodeOutcome payload with
        | error e =>
          rw [hdo] at htr
          simp at htr
        | ok decoded =>
          rw [hdo] at htr
          simp only [Prod.mk.injEq, Except.ok.injEq] at htr
          obtain ⟨hres, -⟩ := htr
          subst hres
          constructor
          · intro hroot
            rw [hroot]
            simp [h1]
          · rfl
      · have hcm : type_name ∉ c.typeNames := by simpa using hc
        simp [TraceService_trace, h1, hmgr, hc, hcm] at htr

/-- Claim C6, witness: a concrete successful trace with an empty collector
synthesizes the root and reports 8 total bits for a one-byte payload. -/
theorem C6_witness :
    hex_to_bytes "ff" = Except.ok [255] ∧
    TraceService_trace (fun _ => some ⟨0, ["T"]⟩) "p" "T" "ff" id
        (fun _ => Except.ok (PyVal.int 5)) Option.none =
      (Except.ok ⟨"p", "T", PyVal.int 5,
        ⟨"T", "T", PyVal.int 5, some ⟨0, 8⟩, []⟩, 8⟩, Option.none) ∧
    (⟨"T", "T", PyVal.int 5, some ⟨0, 8⟩, []⟩ : TraceNode) =
      ⟨"T", "T", serialize_asn1_data (PyVal.int 5), some ⟨0, 1 * 8⟩, []⟩ ∧
    (8 : Nat) = (match (some ⟨0, 8⟩ : Option BitRange) with
      | some b => b.end_
      | Option.none => 1 * 8) := by
  have hpb : hex_to_bytes "ff" = Except.ok [255] := by
    have hclean : cleanTracerHex "ff" = ['f', 'f'] := by decide
    simp [hex_to_bytes, hclean, fromhexChars, hexPairsToBytes, hexDigitVal]
  have htr : TraceService_trace (fun _ => some ⟨0, ["T"]⟩) "p" "T" "ff" id
      (fun _ => Except.ok (PyVal.int 5)) Option.none =
      (Except.ok ⟨"p", "T", PyVal.int 5,
        ⟨"T", "T", PyVal.int 5, some ⟨0, 8⟩, []⟩, 8⟩, Option.none) := by
    simp [TraceService_trace, hpb, serialize_asn1_data]
  have h := C6_theorem (fun _ => some ⟨0, ["T"]⟩) "p" "T" "ff" id
    (fun _ => Except.ok (PyVal.int 5)) Option.none
    ⟨"p", "T", PyVal.int 5, ⟨"T", "T", PyVal.int 5, some ⟨0, 8⟩, []⟩, 8⟩
    Option.none [255] hpb htr
  refine ⟨hpb, htr, ?_, rfl⟩
  have h2 := h.1 rfl
  simpa using h2.symm

/-- Claim C7: the wrapper never alters decode semantics — with no active
collector it passes the original result through untouched; when the wrapped
decode raises with a frame pushed (and the nested decodes are well
bracketed, leaving that frame on top), the wrapper pops the frame without
attaching it to any parent and re-raises the same exception, changing
nothing else in the collector (root and remaining stack are untouched); and
`trace` restores the active-collector slot to its prior value on every
path, success or failure. -/
theorem C7_theorem :
    (∀ tyName tyLabel decoder innerTrans innerResult exitBits,
      wrap_decode Option.none tyName tyLabel decoder innerTrans innerResult exitBits =
        (innerResult, Option.none)) ∧
    (∀ (c : TraceCollector) (tyName tyLabel : String) (bits : Nat)
        (innerTrans : TraceCollector → TraceCollector) (e : PyErr) (exitBits : Nat)
        (top : Frame) (rest : List Frame),
      (innerTrans { c with
          stack := ⟨c.nextId, ⟨pickName tyName tyLabel, tyLabel, PyVal.none, Option.none, []⟩,
            bits⟩ :: c.stack,
          nextId := c.nextId + 1 }).stack = top :: rest →
      top.fid = c.nextId →
      wrap_decode (some c) tyName tyLabel (some (Decoder.per bits)) innerTrans
          (Except.error e) exitBits =
        (Except.error e,
         some { innerTrans { c with
            stack := ⟨c.nextId, ⟨pickName tyName tyLabel, tyLabel, PyVal.none, Option.none, []⟩,
              bits⟩ :: c.stack,
            nextId := c.nextId + 1 } with stack := rest })) ∧
    (∀ (mgr : String → Option SpecH) (protocol type_name hex_data : String)
        (decodeTrans : TraceCollector → TraceCollector)
        (decodeOutcome : List Nat → Except PyErr PyVal) (ctx0 : Option TraceCollector),
      (TraceService_trace mgr protocol type_name hex_data decodeTrans decodeOutcome ctx0).2 =
        ctx0) := by
  refine ⟨?_, ?_, ?_⟩
  · intro tyName tyLabel decoder innerTrans innerResult exitBits
    rfl
  · intro c tyName tyLabel bits innerTrans e exitBits top rest hst hfid
    simp only [wrap_decode, TraceCollector.push, TraceCollector.pop_error]
    rw [hst]
    simp [hfid]
  · intro mgr protocol type_name hex_data decodeTrans decodeOutcome ctx0
    simp only [TraceService_trace]
    split
    · rfl
    · split
      · rfl
      · split
        · rfl
        · split
          · rfl
          · split
            · rfl
            · rfl

/-- Claim C7, witness: concrete instances of all three components — the
pass-through with no collector, an error pop on a singleton stack, and the
slot restore after a failing trace call. -/
theorem C7_witness :
    wrap_decode Option.none "n" "t" Option.none id
        (Except.ok (PyVal.int 1)) 4 = (Except.ok (PyVal.int 1), Option.none) ∧
    wrap_decode (some ⟨[], Option.none, 8, 0⟩) "n" "t" (some (Decoder.per 0)) id
        (Except.error (PyErr.decodeError "bad")) 4 =
      (Except.error (PyErr.decodeError "bad"),
       some { id (⟨⟨0, ⟨pickName "n" "t", "t", PyVal.none, Option.none, []⟩, 0⟩ ::
          ([] : List Frame), Option.none, 8, 0 + 1⟩ : TraceCollector) with
          stack := ([] : List Frame) }) ∧
    (TraceService_trace (fun _ => Option.none) "p" "T" "zz" id
        (fun _ => Except.ok PyVal.none) (some ⟨[], Option.none, 16, 3⟩)).2 =
      some (⟨[], Option.none, 16, 3⟩ : TraceCollector) := by
  refine ⟨C7_theorem.1 "n" "t" Option.none id (Except.ok (PyVal.int 1)) 4, ?_, ?_⟩
  · exact C7_theorem.2.1 ⟨[], Option.none, 8, 0⟩ "n" "t" 0 id
      (PyErr.decodeError "bad") 4
      ⟨0, ⟨pickName "n" "t", "t", PyVal.none, Option.none, []⟩, 0⟩ [] rfl rfl
  · exact C7_theorem.2.2 (fun _ => Option.none) "p" "T" "zz" id
      (fun _ => Except.ok PyVal.none) (some ⟨[], Option.none, 16, 3⟩)

/-- Claim C8: BIT STRING conversion — a `[hex, bitLength]` wire pair becomes
`(bytes, bitLength)` after `0x`/whitespace cleanup, a bare hex string becomes
`(bytes, 8 × byte-length)`, and `toWireValue` renders `(bytes, bitLength)`
back as `["0x" + lowercase-hex, bitLength]`. -/
theorem C8_theorem (s : String) (n : Int) (bs : List Nat)
    (hfx : fromhexChars (padEven (cleanHexChars s)) = Except.ok bs) :
    convert_to_python_asn1 (PyVal.list [PyVal.str s, PyVal.int n]) Asn1Type.BitString =
      Except.ok (PyVal.tuple [PyVal.bytes bs, PyVal.int n]) ∧
    convert_to_python_asn1 (PyVal.str s) Asn1Type.BitString =
      Except.ok (PyVal.tuple [PyVal.bytes bs, PyVal.int (8 * bs.length)]) ∧
    serialize_asn1_data (PyVal.tuple [PyVal.bytes bs, PyVal.int n]) =
      PyVal.list [PyVal.str ("0x" ++ bytesHexStr bs), PyVal.int n] := by
  refine ⟨?_, ?_, ?_⟩
  · simp [convert_to_python_asn1, pyInt, bitBody, hfx, Bind.bind, Except.bind]
  · simp [convert_to_python_asn1, hfx]
  · simp [serialize_asn1_data, pyIsInt]

/-- Claim C8, witness: wire `["A0", 4]` → codec `(bytes.fromhex("A0"), 4)` →
wire `["0xa0", 4]`, and bare `"A0"` → `(bytes.fromhex("A0"), 8)`. -/
theorem C8_witness :
    fromhexChars (padEven (cleanHexChars "A0")) = Except.ok [160] ∧
    convert_to_python_asn1 (PyVal.list [PyVal.str "A0", PyVal.int 4]) Asn1Type.BitString =
      Except.ok (PyVal.tuple [PyVal.bytes [160], PyVal.int 4]) ∧
    convert_to_python_asn1 (PyVal.str "A0") Asn1Type.BitString =
      Except.ok (PyVal.tuple [PyVal.bytes [160], PyVal.int 8]) ∧
    serialize_asn1_data (PyVal.tuple [PyVal.bytes [160], PyVal.int 4]) =
      PyVal.list [PyVal.str "0xa0", PyVal.int 4] := by
  have hfx : fromhexChars (padEven (cleanHexChars "A0")) = Except.ok [160] := by
    simp [cleanHexChars, remove0x, padEven, fromhexChars, hexPairsToBytes, hexDigitVal]
  have h := C8_theorem "A0" 4 [160] hfx
  have hhex : ("0x" ++ bytesHexStr [160]) = "0xa0" := by
    simp [bytesHexStr, byteHex, hexDigitChar]
  refine ⟨hfx, h.1, ?_, ?_⟩
  · simpa using h.2.1
  · rw [h.2.2, hhex]

/-- Claim C9: the cycle guard of `_describe_type` is path-local — a node is
treated as visited exactly when it lies on the current recursion path, in
which case it is emitted as a childless node annotated `recursive
reference`; otherwise each child is walked with the path extended only by
this node (so sibling branches are independent). Consequently the walk is
total on every finite, possibly cyclic, type graph: the same type reached
through two sibling branches is fully described twice, while a
self-containing type terminates as a flagged leaf. -/
theorem C9_theorem :
    (∀ (n : Nat) (g : TypeGraph n) (visited : Finset (Fin n)) (i : Fin n),
      i ∈ visited →
        describe_type g visited i =
          ⟨g.nameOf i, g.typeOf i, g.kindOf i, g.optionalOf i, g.defaultOf i,
           g.constraintsOf i, some "recursive reference", []⟩) ∧
    (∀ (n : Nat) (g : TypeGraph n) (visited : Finset (Fin n)) (i : Fin n),
      i ∉ visited →
        describe_type g visited i =
          ⟨g.nameOf i, g.typeOf i, g.kindOf i, g.optionalOf i, g.defaultOf i,
           g.constraintsOf i, Option.none,
           (g.rootMembers i).map (fun j => describe_type g (insert i visited) j) ++
           (sortByKey (g.indexMembers i)).map
             (fun p => describe_type g (insert i visited) p.2) ++
           (match g.elementType i with
            | some e => [fixElementName (describe_type g (insert i visited) e)]
            | Option.none => [])⟩) ∧
    build_type_tree twoSiblingGraph 0 =
      ⟨Option.none, "T", "Sequence", false, Option.none, Option.none, Option.none,
       [⟨Option.none, "T", "Integer", false, Option.none, Option.none, Option.none, []⟩,
        ⟨Option.none, "T", "Integer", false, Option.none, Option.none, Option.none, []⟩]⟩ ∧
    build_type_tree selfLoopGraph 0 =
      ⟨Option.none, "T", "Sequence", false, Option.none, Option.none, Option.none,
       [⟨Option.none, "T", "Sequence", false, Option.none, Option.none,
         some "recursive reference", []⟩]⟩ := by
  refine ⟨?_, ?_, ?_, ?_⟩
  · intro n g visited i hv
    rw [describe_type]
    simp [hv]
  · intro n g visited i hv
    rw [describe_type]
    simp [hv]
  · have h1 : ((1 : Fin 2) ∈ insert (0 : Fin 2) (∅ : Finset (Fin 2))) = False := by
      simp [Finset.mem_insert]
    rw [build_type_tree, describe_type]
    simp [twoSiblingGraph, sortByKey]
    rw [describe_type]
    simp [h1, twoSiblingGraph, sortByKey]
  · rw [build_type_tree, describe_type]
    simp [selfLoopGraph, sortByKey]
    rw [describe_type]
    simp [selfLoopGraph, sortByKey]

/-- Claim C9, witness: a node already on the path is flagged as a recursive
reference with no children. -/
theorem C9_witness :
    (0 : Fin 1) ∈ ({0} : Finset (Fin 1)) ∧
    describe_type selfLoopGraph {0} 0 =
      ⟨Option.none, "T", "Sequence", false, Option.none, Option.none,
       some "recursive reference", []⟩ := by
  refine ⟨by decide, ?_⟩
  rw [C9_theorem.1 1 selfLoopGraph {0} 0 (by decide)]
  simp [selfLoopGraph]

/-- Claim C10: the wire-value normalizer `serialize_asn1_data` never leaves a
`bytes`/`bytearray` or tuple at any nesting depth — `(str, payload)` tuples
become `$choice` maps, `(bytes, int)` pairs become `["0x…", int]` lists,
other tuples become lists and bytes become hex strings — so decode results
and trace node values are always JSON-serializable. -/
theorem C10_theorem : ∀ v, jsonSafe (serialize_asn1_data v) = true := by
  apply serialize_asn1_data.induct
    (fun v => jsonSafe (serialize_asn1_data v) = true)
    (fun xs => jsonSafeList (serializeList xs) = true)
    (fun es => jsonSafeEntries (serializeEntries es) = true)
  · intro es ih
    simp [serialize_asn1_data, jsonSafe, ih]
  · intro s second ih
    simp [serialize_asn1_data, jsonSafe, jsonSafeEntries, ih]
  · intro bs second hpy
    cases second <;> simp [pyIsInt] at hpy <;>
      simp [serialize_asn1_data, pyIsInt, jsonSafe, jsonSafeList]
  · intro bs second hpy ih
    have hpy2 : pyIsInt second = false := by simpa using hpy
    simp [serialize_asn1_data, hpy2, jsonSafe, ih]
  · intro xs h1 h2 ih
    cases xs with
    | nil => simp [serialize_asn1_data, serializeList, jsonSafe, jsonSafeList]
    | cons a t => simp [serialize_asn1_data, jsonSafe, ih]
  · intro xs ih
    simp [serialize_asn1_data, jsonSafe, ih]
  · intro bs
    simp [serialize_asn1_data, jsonSafe]
  · intro s
    simp [serialize_asn1_data, jsonSafe]
  · intro n
    simp [serialize_asn1_data, jsonSafe]
  · intro b
    simp [serialize_asn1_data, jsonSafe]
  · simp [serialize_asn1_data, jsonSafe]
  · simp [serializeList, jsonSafeList]
  · intro v vs ih1 ih2
    simp [serializeList, jsonSafeList, ih1, ih2]
  · simp [serializeEntries, jsonSafeEntries]
  · intro k v rest ih1 ih2
    simp [serializeEntries, jsonSafeEntries, ih1, ih2]

end AsnProcessor
